import Mathlib

/-!
# goParticles1: the parallel particle integrator of `main.go`

A shallow embedding of `updateParticles` and of the dispatch / wait part of the
render loop of `main`, followed by the properties of the integrator.

Conventions of the embedding.

* Go `int` values (`start`, `end`, the loop counter `i`, `batchSize`) are `Int`.
  All values that occur are bounded by `len(particles) + 4`, so the 64-bit
  range is never left and no wrap-around is modelled.
* `float32` is an abstract carrier `α` together with a record `Arith α` of the
  primitive operations the source applies to it.  Every structural theorem is
  proved for an arbitrary `Arith α`; the kinematic theorems instantiate it with
  exact arithmetic over a field, and the unit example is also checked for every
  arithmetic on the reals whose operations have a bounded relative error.
* An index outside `[0, len)` makes Go panic; the embedding returns
  `Except.error Fault.indexOutOfRange` there.
* The buffered channel `done` is represented by the number of values that sit
  in its buffer; its capacity is `threads`.
* Goroutines are modelled twice: run to completion one after another
  (`updateParticles`, `runWorkers`, `tickIn`), and as an interleaving of atomic
  steps chosen by a schedule (`step`, `run`), each step touching one index.
-/

namespace Particles

/-! ## Constants (`main.go`, lines 18-23) -/

/-- The constant `threads` of the source. -/
def threads : Nat := 4

/-- The constant `numParticles` of the source. -/
def numParticles : Nat := 1000000

/-! ## Vectors and arithmetic -/

/-- Counterpart of `mgl32.Vec4`, an array of four scalars; `x`, `y`, `z`, `w`
are the components `[0]`, `[1]`, `[2]`, `[3]`. -/
structure Vec4 (α : Type) where
  x : α
  y : α
  z : α
  w : α
deriving DecidableEq, Repr

/-- Counterpart of `mgl32.Vec3`. -/
structure Vec3 (α : Type) where
  x : α
  y : α
  z : α
deriving DecidableEq, Repr

/-- The primitive scalar operations used by the body of `updateParticles`.
`α` stands for `float32`, `F64` for `float64`; `to64` and `to32` are the
conversions `float64(·)` and `float32(·)`, `hypot` is `math.Hypot`, and
`t`, `half`, `negNine` are the constants `float32(0.01)`, `0.5` and `-9.0`. -/
structure Arith (α : Type) where
  F64 : Type
  to64 : α → F64
  to32 : F64 → α
  hypot : F64 → F64 → F64
  add : α → α → α
  mul : α → α → α
  div : α → α → α
  t : α
  half : α
  negNine : α

/-- Exact arithmetic over a field, with `math.Hypot p q` read as
`sqrt (p*p + q*q)` for the given square-root function; both float types are
the field itself and the conversions are the identity. -/
def exactArith (α : Type) [Field α] (sqrt : α → α) : Arith α where
  F64 := α
  to64 := id
  to32 := id
  hypot := fun p q => sqrt (p * p + q * q)
  add := fun a b => a + b
  mul := fun a b => a * b
  div := fun a b => a / b
  t := 1 / 100
  half := 1 / 2
  negNine := -9

/-! ## The per-particle update (`main.go`, lines 78-96) -/

/-- Line 83: `d := float32(math.Hypot(float64(vPos.X()),
math.Hypot(float64(vPos.Y()), float64(vPos.Z()))))`. -/
def speed {α : Type} (a : Arith α) (vPos : Vec4 α) : α :=
  a.to32 (a.hypot (a.to64 vPos.x) (a.hypot (a.to64 vPos.y) (a.to64 vPos.z)))

/-- Lines 85-88: `g[k] = float32(pPos[k]/d) * -9.0` for `k = 0, 1, 2`. -/
def gravity {α : Type} (a : Arith α) (pPos vPos : Vec4 α) : Vec3 α :=
  let d := speed a vPos
  { x := a.mul (a.div pPos.x d) a.negNine
    y := a.mul (a.div pPos.y d) a.negNine
    z := a.mul (a.div pPos.z d) a.negNine }

/-- Lines 90-92: the new value of `particles[i]`.  Components 0..2 are assigned
`pPos[k] + vPos[k]*t + 0.5*t*t*g[k]` (Go parses this as
`(pPos[k] + vPos[k]*t) + ((0.5*t)*t)*g[k]`); component 3 is not assigned and
keeps the value it had when `pPos` was copied. -/
def newPos {α : Type} (a : Arith α) (pPos vPos : Vec4 α) : Vec4 α :=
  let g := gravity a pPos vPos
  { x := a.add (a.add pPos.x (a.mul vPos.x a.t)) (a.mul (a.mul (a.mul a.half a.t) a.t) g.x)
    y := a.add (a.add pPos.y (a.mul vPos.y a.t)) (a.mul (a.mul (a.mul a.half a.t) a.t) g.y)
    z := a.add (a.add pPos.z (a.mul vPos.z a.t)) (a.mul (a.mul (a.mul a.half a.t) a.t) g.z)
    w := pPos.w }

/-- Lines 94-96: the new value of `velocities[i]`.  Components 0..2 are
assigned `vPos[k] + g[k]*t`; component 3 is not assigned. -/
def newVel {α : Type} (a : Arith α) (pPos vPos : Vec4 α) : Vec4 α :=
  let g := gravity a pPos vPos
  { x := a.add vPos.x (a.mul g.x a.t)
    y := a.add vPos.y (a.mul g.y a.t)
    z := a.add vPos.z (a.mul g.z a.t)
    w := vPos.w }

/-! ## Program state -/

/-- The ways in which the modelled code fails to run to its end. -/
inductive Fault where
  /-- A slice index outside `[0, len)`: Go panics. -/
  | indexOutOfRange
  /-- A send on `done` while its buffer is full and nobody receives. -/
  | sendBlocked
  /-- The wait loop of `main` spins with no sender left and `len(done) != 4`. -/
  | barrierNeverMet
deriving DecidableEq, Repr

/-- The global variables `particles`, `velocities` and `done`.  `done` is the
number of values buffered in the channel. -/
structure World (α : Type) where
  particles : List (Vec4 α)
  velocities : List (Vec4 α)
  done : Nat
deriving DecidableEq, Repr

/-- Reading `xs[i]` for a Go `int` index: `none` stands for the panic. -/
def readAt {β : Type} (xs : List β) (i : Int) : Option β :=
  if i < 0 then none else xs[i.toNat]?

/-- One pass through the loop body (lines 78-96) for loop counter `i`:
`particles[i]` and `velocities[i]` are read, then both entries are
overwritten.  Only index `i` of either slice is touched. -/
def updateAt {α : Type} (a : Arith α) (s : World α) (i : Int) : Except Fault (World α) :=
  match readAt s.particles i, readAt s.velocities i with
  | some pPos, some vPos =>
    .ok { s with
          particles := s.particles.set i.toNat (newPos a pPos vPos)
          velocities := s.velocities.set i.toNat (newVel a pPos vPos) }
  | _, _ => .error .indexOutOfRange

/-- Lines 72-74: `if end > len(particles) { end = len(particles) }`. -/
def clampEnd (end_ : Int) (n : Nat) : Int :=
  if end_ > (n : Int) then (n : Int) else end_

/-- The values taken by the counter of `for i := start; i < end; i++`
(line 76), in order: `start, start+1, ..., end-1`, none when `start >= end`. -/
def loopIndices (start end_ : Int) : List Int :=
  (List.range (end_ - start).toNat).map (fun (k : Nat) => start + (k : Int))

/-- Running the loop body for the given counter values, one after another;
a panic ends the run. -/
def forEach {α : Type} (a : Arith α) : List Int → World α → Except Fault (World α)
  | [], s => .ok s
  | i :: is, s =>
    match updateAt a s i with
    | .ok s1 => forEach a is s1
    | .error e => .error e

/-- Lines 72-98: the clamp and the update loop of `updateParticles`. -/
def updateLoop {α : Type} (a : Arith α) (start end_ : Int) (s : World α) :
    Except Fault (World α) :=
  forEach a (loopIndices start (clampEnd end_ s.particles.length)) s

/-- Line 100: `done <- true` on a channel of capacity `threads`. -/
def chanSend {α : Type} (s : World α) : Except Fault (World α) :=
  if s.done < threads then .ok { s with done := s.done + 1 } else .error .sendBlocked

/-- The function `updateParticles(start, end)` (lines 70-102), run to its end. -/
def updateParticles {α : Type} (a : Arith α) (start end_ : Int) (s : World α) :
    Except Fault (World α) :=
  match updateLoop a start end_ s with
  | .ok s1 => chanSend s1
  | .error e => .error e

/-! ## Dispatch and barrier (`main.go`, lines 192-205) -/

/-- Line 192: `batchSize := (len(particles) + threads) / 4`. -/
def batchSize (n : Nat) : Int :=
  ((n : Int) + (threads : Int)) / 4

/-- The arguments of the call spawned for loop counter `w` on line 195. -/
def workerStart (n : Nat) (w : Nat) : Int := (w : Int) * batchSize n

/-- The second argument of the call spawned for loop counter `w`. -/
def workerEnd (n : Nat) (w : Nat) : Int := ((w : Int) + 1) * batchSize n

/-- The indices worker `w` passes through its loop body when the slices have
length `n`: its range after the clamp of lines 72-74. -/
def workerIndices (n : Nat) (w : Nat) : List Int :=
  loopIndices (workerStart n w) (clampEnd (workerEnd n w) n)

/-- The goroutine spawned for loop counter `w`, run to its end. -/
def worker {α : Type} (a : Arith α) (n : Nat) (w : Nat) (s : World α) :
    Except Fault (World α) :=
  updateParticles a (workerStart n w) (workerEnd n w) s

/-- The workers named in `order` run to completion one after another, with the
batch size computed from a slice length `n`. -/
def runWorkers {α : Type} (a : Arith α) (n : Nat) : List Nat → World α → Except Fault (World α)
  | [], s => .ok s
  | w :: ws, s =>
    match worker a n w s with
    | .ok s1 => runWorkers a n ws s1
    | .error e => .error e

/-- Lines 200-202: `for len(done) > 0 { <-done }`, as a function of the number
of buffered values. -/
def drain : Nat → Nat
  | 0 => 0
  | n + 1 => drain n

/-- Lines 198-205 once every spawned goroutine has returned: the test
`len(done) == 4` either succeeds, and `done` is drained, or can never
succeed any more. -/
def awaitAll {α : Type} (s : World α) : Except Fault (World α) :=
  if s.done = 4 then .ok { s with done := drain s.done } else .error .barrierNeverMet

/-- One tick (lines 192-205) in which the four goroutines run in the given
order, each to completion. -/
def tickIn {α : Type} (a : Arith α) (order : List Nat) (s : World α) :
    Except Fault (World α) :=
  match runWorkers a s.particles.length order s with
  | .ok s1 => awaitAll s1
  | .error e => .error e

/-- One tick with the goroutines run in spawn order `0, 1, 2, 3`. -/
def tick {α : Type} (a : Arith α) (s : World α) : Except Fault (World α) :=
  tickIn a (List.range threads) s

/-- The first `k` ticks of the render loop. -/
def ticks {α : Type} (a : Arith α) : Nat → World α → Except Fault (World α)
  | 0, s => .ok s
  | k + 1, s =>
    match tick a s with
    | .ok s1 => ticks a k s1
    | .error e => .error e

/-! ## Goroutines of one tick as an interleaving of steps

The big-step functions above run each goroutine to completion.  The following
step function interleaves them: a schedule names, step by step, which
goroutine moves next.  One step of a worker is one pass through the loop body
(which touches a single index), the clamp on entry, or the final send; one
step of `main` is one `go` statement, one evaluation of the wait test, or one
receive of the drain loop. -/

/-- Control point of a goroutine executing `updateParticles`. -/
inductive WorkerPc where
  /-- Spawned with arguments `start`, `end`; line 72 not yet executed. -/
  | entry (start end_ : Int)
  /-- At the loop test `i < end` of line 76, `end` already clamped. -/
  | loop (i end_ : Int)
  /-- Past the send of line 100: the goroutine has returned. -/
  | returned
deriving DecidableEq, Repr

/-- Control point of `main` inside one iteration of the render loop. -/
inductive MainPc where
  /-- Before line 192. -/
  | start
  /-- At the test `i < threads` of line 194. -/
  | spawn (i : Nat)
  /-- At the test `len(done) == 4` of line 199. -/
  | wait
  /-- At the test `len(done) > 0` of line 200. -/
  | drain
  /-- Past the `break` of line 203: `main` uses the slices again (line 207). -/
  | resumed
deriving DecidableEq, Repr

/-- The goroutines of a tick. -/
inductive Tid where
  | main
  | worker (w : Nat)
deriving DecidableEq, Repr

/-- A configuration of the tick: the globals, the local `batchSize` of `main`,
the control point of `main`, the control points of the goroutines spawned so
far (in spawn order), and whether the process has died of a panic. -/
structure Config (α : Type) where
  world : World α
  batch : Int
  main : MainPc
  workers : List WorkerPc
  panicked : Bool
deriving DecidableEq, Repr

/-- The configuration in which `main` is about to execute line 192. -/
def initial {α : Type} (s : World α) : Config α :=
  { world := s, batch := 0, main := .start, workers := [], panicked := false }

/-- One step of `main`; `none` when `main` has left the tick. -/
def stepMain {α : Type} (c : Config α) : Option (Config α) :=
  match c.main with
  | .start => some { c with batch := batchSize c.world.particles.length, main := .spawn 0 }
  | .spawn i =>
    if i < threads then
      some { c with
             workers := c.workers ++ [.entry ((i : Int) * c.batch) (((i : Int) + 1) * c.batch)]
             main := .spawn (i + 1) }
    else some { c with main := .wait }
  | .wait => if c.world.done = 4 then some { c with main := .drain } else some c
  | .drain =>
    if c.world.done > 0 then some { c with world := { c.world with done := c.world.done - 1 } }
    else some { c with main := .resumed }
  | .resumed => none

/-- One step of worker `w`; `none` when it does not exist, has returned, or is
blocked in its send. -/
def stepWorker {α : Type} (a : Arith α) (c : Config α) (w : Nat) : Option (Config α) :=
  match c.workers[w]? with
  | some (.entry start end_) =>
    some { c with
           workers := c.workers.set w (.loop start (clampEnd end_ c.world.particles.length)) }
  | some (.loop i e) =>
    if i < e then
      match updateAt a c.world i with
      | .ok wd => some { c with world := wd, workers := c.workers.set w (.loop (i + 1) e) }
      | .error _ => some { c with panicked := true }
    else
      match chanSend c.world with
      | .ok wd => some { c with world := wd, workers := c.workers.set w .returned }
      | .error _ => none
  | _ => none

/-- One step of the named goroutine; nothing moves after a panic. -/
def step {α : Type} (a : Arith α) (c : Config α) (t : Tid) : Option (Config α) :=
  if c.panicked then none
  else
    match t with
    | .main => stepMain c
    | .worker w => stepWorker a c w

/-- Running a schedule; `none` when it names a goroutine that cannot move. -/
def run {α : Type} (a : Arith α) : Config α → List Tid → Option (Config α)
  | c, [] => some c
  | c, t :: ts =>
    match step a c t with
    | some c1 => run a c1 ts
    | none => none

/-! ## Specification predicates -/

/-- The state in which every particle of `s` has received the update once. -/
def advance {α : Type} (a : Arith α) (s : World α) : World α :=
  { particles := List.zipWith (newPos a) s.particles s.velocities
    velocities := List.zipWith (newVel a) s.particles s.velocities
    done := s.done }

/-- Relative to the pre-tick state `s0`, the slices of `s` hold the updated
entry at the indices in `D` and the pre-tick entry everywhere else. -/
def Progress {α : Type} (a : Arith α) (s0 : World α) (D : Int → Prop) (s : World α) : Prop :=
  s.particles.length = s0.particles.length ∧
  s.velocities.length = s0.velocities.length ∧
  ∀ j : Nat,
    (D (j : Int) → s.particles[j]? = (advance a s0).particles[j]? ∧
      s.velocities[j]? = (advance a s0).velocities[j]?) ∧
    (¬ D (j : Int) → s.particles[j]? = s0.particles[j]? ∧
      s.velocities[j]? = s0.velocities[j]?)

/-- Every position has fourth component 1 and every velocity has fourth
component 0, as the initialisation loops of `main` (lines 135-152) build them. -/
def Homogeneous {α : Type} [One α] [Zero α] (s : World α) : Prop :=
  (∀ p ∈ s.particles, p.w = 1) ∧ (∀ v ∈ s.velocities, v.w = 0)

/-- The indices a goroutine at the given control point has already passed
through its loop body. -/
def WorkerPc.passed : WorkerPc → Int → Prop
  | .entry _ _, _ => False
  | .loop i _, j => j < i
  | .returned, _ => True

/-- The control point of worker `w` is consistent with its arguments, for
slices of length `n`. -/
def WorkerPc.WF (n w : Nat) : WorkerPc → Prop
  | .entry st en => st = workerStart n w ∧ en = workerEnd n w
  | .loop i e => e = clampEnd (workerEnd n w) n ∧ workerStart n w ≤ i
  | .returned => True

/-- Index `j` has been passed through the loop body of some spawned worker. -/
def processed (n : Nat) (ws : List WorkerPc) (j : Int) : Prop :=
  ∃ w pc, ws[w]? = some pc ∧ j ∈ workerIndices n w ∧ pc.passed j

/-- What the control point of `main` says about the workers and `done`. -/
def MainOk {α : Type} (n : Nat) (c : Config α) : Prop :=
  match c.main with
  | .start => c.workers = [] ∧ c.world.done = 0
  | .spawn i => i ≤ threads ∧ c.workers.length = i ∧
      c.world.done = c.workers.count .returned ∧ c.batch = batchSize n
  | .wait => c.workers.length = threads ∧ c.world.done = c.workers.count .returned
  | .drain => c.workers.length = threads ∧ (∀ pc ∈ c.workers, pc = .returned) ∧
      c.world.done ≤ threads
  | .resumed => c.workers.length = threads ∧ (∀ pc ∈ c.workers, pc = .returned) ∧
      c.world.done = 0

/-- The invariant of a tick started in state `s0`. -/
structure Inv {α : Type} (a : Arith α) (s0 : World α) (c : Config α) : Prop where
  alive : c.panicked = false
  prog : Progress a s0 (processed s0.particles.length c.workers) c.world
  wf : ∀ (w : Nat) (pc : WorkerPc), c.workers[w]? = some pc → pc.WF s0.particles.length w
  mainOk : MainOk s0.particles.length c

/-- Every primitive operation of `a` returns the exact real result up to a
relative error `u` (the standard model of rounded floating-point arithmetic,
without underflow); the constants `0.5` and `-9.0` are exact, `t` is `0.01`
up to `u`, and the nested `Hypot` with its conversions is the Euclidean norm
up to `u`. -/
structure Accurate (a : Arith ℝ) (u : ℝ) : Prop where
  add : ∀ x y, |a.add x y - (x + y)| ≤ u * |x + y|
  mul : ∀ x y, |a.mul x y - x * y| ≤ u * |x * y|
  div : ∀ x y, |a.div x y - x / y| ≤ u * |x / y|
  t : |a.t - 1 / 100| ≤ u * |(1 / 100 : ℝ)|
  half : a.half = 1 / 2
  negNine : a.negNine = -9
  speed : ∀ v : Vec4 ℝ, |speed a v - Real.sqrt (v.x ^ 2 + v.y ^ 2 + v.z ^ 2)| ≤
    u * |Real.sqrt (v.x ^ 2 + v.y ^ 2 + v.z ^ 2)|

/-! ## Sample data -/

/-- Exact rational arithmetic; `Rat.sqrt` is exact on squares of rationals. -/
def sampleArith : Arith ℚ := exactArith ℚ Rat.sqrt

/-- Five particles with homogeneous coordinates as built by `main`, and an
empty `done`. -/
def sampleWorld : World ℚ :=
  { particles := [⟨0, 0, 10, 1⟩, ⟨1, 2, 3, 1⟩, ⟨-4, 5, 6, 1⟩, ⟨7, -8, 9, 1⟩, ⟨32, -32, 0, 1⟩]
    velocities := [⟨1, 0, 0, 0⟩, ⟨3, 4, 0, 0⟩, ⟨0, 0, 2, 0⟩, ⟨2, 3, 6, 0⟩, ⟨-10, 10, 5, 0⟩]
    done := 0 }

/-- Two particles, so that workers 0 and 1 update one index each and workers
2 and 3 have an empty range. -/
def sampleSmall : World ℚ :=
  { particles := [⟨0, 0, 10, 1⟩, ⟨1, 2, 3, 1⟩]
    velocities := [⟨1, 0, 0, 0⟩, ⟨3, 4, 0, 0⟩]
    done := 0 }

/-- A schedule of one tick on two particles in which the goroutines
interleave: workers start before all are spawned, `main` spins twice in its
wait loop, and the sends arrive in the order 2, 0, 1, 3. -/
def sampleSchedule : List Tid :=
  [.main, .main, .worker 0, .main, .worker 1, .worker 1, .worker 0, .main, .main, .main,
   .main, .worker 2, .worker 2, .worker 0, .worker 3, .worker 1, .main, .worker 3,
   .main, .main, .main, .main, .main, .main]

/-- The configuration the sample schedule ends in. -/
def sampleFinal : Config ℚ :=
  { world := advance sampleArith sampleSmall, batch := 1, main := .resumed,
    workers := [.returned, .returned, .returned, .returned], panicked := false }

/-! ## Loop counter values and worker ranges -/

theorem mem_loopIndices (start end_ i : Int) :
    i ∈ loopIndices start end_ ↔ start ≤ i ∧ i < end_ := by
  unfold loopIndices
  simp only [List.mem_map, List.mem_range]
  constructor
  · rintro ⟨k, hk, rfl⟩
    omega
  · rintro ⟨h1, h2⟩
    exact ⟨(i - start).toNat, by omega, by omega⟩

theorem nodup_loopIndices (start end_ : Int) : (loopIndices start end_).Nodup := by
  unfold loopIndices
  refine List.Nodup.map_on ?_ (List.nodup_range _)
  intro k1 _ k2 _ h
  simp only at h
  omega

theorem batchSize_pos (n : Nat) : 0 < batchSize n := by
  unfold batchSize threads
  omega

theorem batchSize_cover (n : Nat) : (n : Int) < 4 * batchSize n := by
  unfold batchSize threads
  omega

theorem mem_workerIndices (n w : Nat) (i : Int) :
    i ∈ workerIndices n w ↔
      (w : Int) * batchSize n ≤ i ∧ i < ((w : Int) + 1) * batchSize n ∧ i < (n : Int) := by
  unfold workerIndices workerStart workerEnd clampEnd
  rw [mem_loopIndices]
  split <;> constructor <;> intro h <;> refine ⟨h.1, ?_⟩ <;> omega

theorem workerIndices_bounds (n w : Nat) (i : Int) (h : i ∈ workerIndices n w) :
    0 ≤ i ∧ i < (n : Int) := by
  rw [mem_workerIndices] at h
  have hB := batchSize_pos n
  have : 0 ≤ (w : Int) * batchSize n := by positivity
  omega

theorem workerIndices_disjoint (n w1 w2 : Nat) (hne : w1 ≠ w2) (i : Int)
    (h1 : i ∈ workerIndices n w1) (h2 : i ∈ workerIndices n w2) : False := by
  rw [mem_workerIndices] at h1 h2
  have hB := batchSize_pos n
  rcases Nat.lt_or_gt_of_ne hne with h | h
  · have : ((w1 : Int) + 1) * batchSize n ≤ (w2 : Int) * batchSize n := by
      apply mul_le_mul_of_nonneg_right _ hB.le
      omega
    omega
  · have : ((w2 : Int) + 1) * batchSize n ≤ (w1 : Int) * batchSize n := by
      apply mul_le_mul_of_nonneg_right _ hB.le
      omega
    omega

theorem workerIndices_cover (n : Nat) (i : Int) (h0 : 0 ≤ i) (hn : i < (n : Int)) :
    ∃ w, w < threads ∧ i ∈ workerIndices n w := by
  have hB := batchSize_pos n
  have hC := batchSize_cover n
  refine ⟨(i / batchSize n).toNat, ?_, ?_⟩
  · have h1 : i / batchSize n < 4 := Int.ediv_lt_of_lt_mul hB (by omega)
    have h2 : 0 ≤ i / batchSize n := Int.ediv_nonneg h0 hB.le
    unfold threads
    omega
  · rw [mem_workerIndices]
    have h2 : 0 ≤ i / batchSize n := Int.ediv_nonneg h0 hB.le
    rw [Int.toNat_of_nonneg h2]
    refine ⟨Int.ediv_mul_le i hB.ne', ?_, hn⟩
    have := Int.lt_ediv_add_one_mul_self i hB
    linarith

/-! ## Loop invariant of the update -/

theorem progress_init {α : Type} (a : Arith α) (s0 : World α) :
    Progress a s0 (fun _ => False) s0 :=
  ⟨rfl, rfl, fun _ => ⟨fun h => h.elim, fun _ => ⟨rfl, rfl⟩⟩⟩

theorem progress_congr {α : Type} (a : Arith α) (s0 s : World α) (D E : Int → Prop)
    (h : ∀ i, D i ↔ E i) (hP : Progress a s0 D s) : Progress a s0 E s := by
  have : D = E := funext fun i => propext (h i)
  rw [← this]
  exact hP

theorem readAt_natCast {β : Type} (xs : List β) (k : Nat) : readAt xs (k : Int) = xs[k]? := by
  unfold readAt
  simp

theorem updateAt_progress {α : Type} (a : Arith α) (s0 s : World α) (D : Int → Prop) (i : Int)
    (hlen : s0.particles.length = s0.velocities.length) (hP : Progress a s0 D s)
    (h0 : 0 ≤ i) (hn : i < (s0.particles.length : Int)) (hD : ¬ D i) :
    ∃ s1, updateAt a s i = .ok s1 ∧ s1.done = s.done ∧
      Progress a s0 (fun j => D j ∨ j = i) s1 := by
  obtain ⟨k, rfl⟩ := Int.eq_ofNat_of_zero_le h0
  have hk : k < s0.particles.length := by exact_mod_cast hn
  have hkv : k < s0.velocities.length := hlen ▸ hk
  obtain ⟨hl1, hl2, hj⟩ := hP
  have hp : s.particles[k]? = some (s0.particles[k]) := by
    rw [((hj k).2 hD).1, List.getElem?_eq_getElem hk]
  have hv : s.velocities[k]? = some (s0.velocities[k]) := by
    rw [((hj k).2 hD).2, List.getElem?_eq_getElem hkv]
  refine ⟨{ s with
      particles := s.particles.set k (newPos a s0.particles[k] s0.velocities[k])
      velocities := s.velocities.set k (newVel a s0.particles[k] s0.velocities[k]) },
    ?_, rfl, ?_⟩
  · unfold updateAt
    rw [readAt_natCast, readAt_natCast, hp, hv]
    simp
  · refine ⟨by simp [hl1], by simp [hl2], fun j => ⟨?_, ?_⟩⟩
    · intro hDj
      by_cases hjk : k = j
      · subst hjk
        simp [advance, List.getElem?_set, hl1, hl2, hk, hkv, List.getElem?_zipWith,
          List.getElem?_eq_getElem hk, List.getElem?_eq_getElem hkv]
      · have hD1 : D (j : Int) := by
          rcases hDj with h | h
          · exact h
          · exact absurd (by exact_mod_cast h.symm) hjk
        simpa [List.getElem?_set, hjk] using (hj j).1 hD1
    · intro hDj
      have hjk : k ≠ j := fun h => hDj (Or.inr (by rw [h]))
      have hD1 : ¬ D (j : Int) := fun h => hDj (Or.inl h)
      simpa [List.getElem?_set, hjk] using (hj j).2 hD1

theorem forEach_progress {α : Type} (a : Arith α) (s0 : World α)
    (hlen : s0.particles.length = s0.velocities.length) :
    ∀ (is : List Int) (s : World α) (D : Int → Prop), Progress a s0 D s →
      (∀ i ∈ is, 0 ≤ i ∧ i < (s0.particles.length : Int) ∧ ¬ D i) → is.Nodup →
      ∃ s1, forEach a is s = .ok s1 ∧ s1.done = s.done ∧
        Progress a s0 (fun j => D j ∨ j ∈ is) s1 := by
  intro is
  induction is with
  | nil =>
    intro s D hP _ _
    exact ⟨s, rfl, rfl, progress_congr a s0 s D _ (fun i => by simp) hP⟩
  | cons i is ih =>
    intro s D hP hb hnd
    obtain ⟨hi0, hin, hiD⟩ := hb i (List.mem_cons_self _ _)
    obtain ⟨s1, h1, hd1, hP1⟩ := updateAt_progress a s0 s D i hlen hP hi0 hin hiD
    have hnd2 := List.nodup_cons.mp hnd
    obtain ⟨s2, h2, hd2, hP2⟩ := ih s1 (fun j => D j ∨ j = i) hP1 (by
      intro j hj
      obtain ⟨hj0, hjn, hjD⟩ := hb j (List.mem_cons_of_mem _ hj)
      refine ⟨hj0, hjn, ?_⟩
      rintro (h | h)
      · exact hjD h
      · exact hnd2.1 (h ▸ hj)) hnd2.2
    refine ⟨s2, ?_, hd2.trans hd1, progress_congr a s0 s2 _ _ (fun j => ?_) hP2⟩
    · simp [forEach, h1, h2]
    · simp only [List.mem_cons]
      tauto

theorem worker_progress {α : Type} (a : Arith α) (s0 s : World α) (D : Int → Prop) (w : Nat)
    (hlen : s0.particles.length = s0.velocities.length) (hP : Progress a s0 D s)
    (hD : ∀ i ∈ workerIndices s0.particles.length w, ¬ D i) (hdone : s.done < threads) :
    ∃ s1, worker a s0.particles.length w s = .ok s1 ∧ s1.done = s.done + 1 ∧
      Progress a s0 (fun j => D j ∨ j ∈ workerIndices s0.particles.length w) s1 := by
  obtain ⟨s1, h1, hd1, hP1⟩ := forEach_progress a s0 hlen
    (workerIndices s0.particles.length w) s D hP
    (fun i hi => ⟨(workerIndices_bounds _ _ i hi).1, (workerIndices_bounds _ _ i hi).2, hD i hi⟩)
    (nodup_loopIndices _ _)
  refine ⟨{ s1 with done := s1.done + 1 }, ?_, by simp [hd1], ?_⟩
  · have hloop : updateLoop a (workerStart s0.particles.length w)
        (workerEnd s0.particles.length w) s = .ok s1 := by
      unfold updateLoop
      rw [hP.1]
      exact h1
    unfold worker updateParticles
    rw [hloop]
    simp [chanSend, hd1, hdone]
  · exact ⟨hP1.1, hP1.2.1, hP1.2.2⟩

theorem runWorkers_progress {α : Type} (a : Arith α) (s0 : World α)
    (hlen : s0.particles.length = s0.velocities.length) :
    ∀ (order : List Nat) (s : World α) (D : Int → Prop), Progress a s0 D s → order.Nodup →
      (∀ w ∈ order, ∀ i ∈ workerIndices s0.particles.length w, ¬ D i) →
      s.done + order.length ≤ threads →
      ∃ s1, runWorkers a s0.particles.length order s = .ok s1 ∧
        s1.done = s.done + order.length ∧
        Progress a s0
          (fun j => D j ∨ ∃ w ∈ order, j ∈ workerIndices s0.particles.length w) s1 := by
  intro order
  induction order with
  | nil =>
    intro s D hP _ _ _
    exact ⟨s, rfl, rfl, progress_congr a s0 s D _ (fun i => by simp) hP⟩
  | cons w ws ih =>
    intro s D hP hnd hD hcap
    have hnd2 := List.nodup_cons.mp hnd
    simp only [List.length_cons] at hcap
    obtain ⟨s1, h1, hd1, hP1⟩ := worker_progress a s0 s D w hlen hP
      (hD w (List.mem_cons_self _ _)) (by omega)
    obtain ⟨s2, h2, hd2, hP2⟩ := ih s1 _ hP1 hnd2.2 (by
      intro v hv i hi
      rintro (h | h)
      · exact hD v (List.mem_cons_of_mem _ hv) i hi h
      · exact workerIndices_disjoint _ v w (fun e => hnd2.1 (e ▸ hv)) i hi h) (by omega)
    refine ⟨s2, ?_, ?_, progress_congr a s0 s2 _ _ (fun j => ?_) hP2⟩
    · simp [runWorkers, h1, h2]
    · simp only [List.length_cons]
      omega
    · simp only [List.mem_cons, exists_eq_or_imp]
      tauto

theorem drain_eq_zero (n : Nat) : drain n = 0 := by
  induction n with
  | zero => rfl
  | succ n ih => simpa [drain] using ih

theorem progress_full {α : Type} (a : Arith α) (s0 s : World α) (D : Int → Prop)
    (hlen : s0.particles.length = s0.velocities.length) (hP : Progress a s0 D s)
    (hD : ∀ j : Nat, j < s0.particles.length → D (j : Int)) :
    s.particles = (advance a s0).particles ∧ s.velocities = (advance a s0).velocities := by
  obtain ⟨hl1, hl2, hj⟩ := hP
  have key : ∀ j : Nat, s.particles[j]? = (advance a s0).particles[j]? ∧
      s.velocities[j]? = (advance a s0).velocities[j]? := by
    intro j
    by_cases h : j < s0.particles.length
    · exact (hj j).1 (hD j h)
    · have h1 : s0.particles.length ≤ j := Nat.le_of_not_lt h
      constructor
      · rw [List.getElem?_eq_none (by omega), List.getElem?_eq_none (by simp [advance]; omega)]
      · rw [List.getElem?_eq_none (by omega), List.getElem?_eq_none (by simp [advance]; omega)]
  exact ⟨List.ext_getElem? fun j => (key j).1, List.ext_getElem? fun j => (key j).2⟩

theorem runWorkers_perm {α : Type} (a : Arith α) (s : World α) (order : List Nat)
    (hlen : s.particles.length = s.velocities.length) (hdone : s.done = 0)
    (hperm : order.Perm (List.range threads)) :
    runWorkers a s.particles.length order s = .ok { advance a s with done := threads } := by
  have hnd : order.Nodup := hperm.nodup_iff.mpr (List.nodup_range _)
  have hlen4 : order.length = threads := by simpa using hperm.length_eq
  obtain ⟨s1, h1, hd1, hP1⟩ := runWorkers_progress a s hlen order s _ (progress_init a s) hnd
    (fun _ _ _ _ h => h) (by omega)
  have hfull := progress_full a s s1 _ hlen hP1 (by
    intro j hj
    obtain ⟨w, hw, hm⟩ := workerIndices_cover s.particles.length (j : Int) (by omega)
      (by exact_mod_cast hj)
    exact Or.inr ⟨w, hperm.mem_iff.mpr (List.mem_range.mpr hw), hm⟩)
  rw [h1]
  congr 1
  cases s1
  simp only [World.mk.injEq]
  simp only at hfull hd1
  exact ⟨hfull.1, hfull.2, by omega⟩

theorem tickIn_perm {α : Type} (a : Arith α) (s : World α) (order : List Nat)
    (hlen : s.particles.length = s.velocities.length) (hdone : s.done = 0)
    (hperm : order.Perm (List.range threads)) :
    tickIn a order s = .ok (advance a s) := by
  unfold tickIn
  rw [runWorkers_perm a s order hlen hdone hperm]
  simp [awaitAll, threads, drain_eq_zero, advance, hdone]

theorem worker_blocked {α : Type} (a : Arith α) (s0 s : World α) (D : Int → Prop) (w : Nat)
    (hlen : s0.particles.length = s0.velocities.length) (hP : Progress a s0 D s)
    (hD : ∀ i ∈ workerIndices s0.particles.length w, ¬ D i) (hdone : ¬ s.done < threads) :
    worker a s0.particles.length w s = .error .sendBlocked := by
  obtain ⟨s1, h1, hd1, _⟩ := forEach_progress a s0 hlen
    (workerIndices s0.particles.length w) s D hP
    (fun i hi => ⟨(workerIndices_bounds _ _ i hi).1, (workerIndices_bounds _ _ i hi).2, hD i hi⟩)
    (nodup_loopIndices _ _)
  have hloop : updateLoop a (workerStart s0.particles.length w)
      (workerEnd s0.particles.length w) s = .ok s1 := by
    unfold updateLoop
    rw [hP.1]
    exact h1
  unfold worker updateParticles
  rw [hloop]
  simp [chanSend, hd1, hdone]

theorem runWorkers_blocked {α : Type} (a : Arith α) (s0 : World α)
    (hlen : s0.particles.length = s0.velocities.length) :
    ∀ (order : List Nat) (s : World α) (D : Int → Prop), Progress a s0 D s → order.Nodup →
      (∀ w ∈ order, ∀ i ∈ workerIndices s0.particles.length w, ¬ D i) →
      order ≠ [] → threads < s.done + order.length →
      runWorkers a s0.particles.length order s = .error .sendBlocked := by
  intro order
  induction order with
  | nil =>
    intro s D _ _ _ hne _
    exact absurd rfl hne
  | cons w ws ih =>
    intro s D hP hnd hD _ hcap
    have hnd2 := List.nodup_cons.mp hnd
    simp only [List.length_cons] at hcap
    by_cases hfree : s.done < threads
    · obtain ⟨s1, h1, hd1, hP1⟩ := worker_progress a s0 s D w hlen hP
        (hD w (List.mem_cons_self _ _)) hfree
      have hne : ws ≠ [] := by
        intro h
        rw [h] at hcap
        simp only [List.length_nil] at hcap
        omega
      have h2 := ih s1 _ hP1 hnd2.2 (by
        intro v hv i hi
        rintro (h | h)
        · exact hD v (List.mem_cons_of_mem _ hv) i hi h
        · exact workerIndices_disjoint _ v w (fun e => hnd2.1 (e ▸ hv)) i hi h) hne (by omega)
      simp [runWorkers, h1, h2]
    · have h1 := worker_blocked a s0 s D w hlen hP (hD w (List.mem_cons_self _ _)) hfree
      simp [runWorkers, h1]

theorem runWorkers_order {α : Type} (a : Arith α) (s : World α) (o1 o2 : List Nat)
    (hlen : s.particles.length = s.velocities.length)
    (h1 : o1.Perm (List.range threads)) (h2 : o2.Perm (List.range threads)) :
    runWorkers a s.particles.length o1 s = runWorkers a s.particles.length o2 s := by
  by_cases hdone : s.done = 0
  · rw [runWorkers_perm a s o1 hlen hdone h1, runWorkers_perm a s o2 hlen hdone h2]
  · have key : ∀ o : List Nat, o.Perm (List.range threads) →
        runWorkers a s.particles.length o s = .error .sendBlocked := by
      intro o ho
      have hl : o.length = threads := by simpa using ho.length_eq
      refine runWorkers_blocked a s hlen o s _ (progress_init a s)
        (ho.nodup_iff.mpr (List.nodup_range _)) (fun _ _ _ _ h => h) ?_ (by omega)
      intro h
      rw [h] at hl
      exact absurd hl (by decide)
    rw [key o1 h1, key o2 h2]

/-! ## Homogeneous coordinates and repeated ticks -/

theorem readAt_mem {β : Type} (xs : List β) (i : Int) (x : β) (h : readAt xs i = some x) :
    x ∈ xs := by
  unfold readAt at h
  split at h
  · exact absurd h (by simp)
  · exact List.getElem?_mem h

theorem updateAt_homogeneous {α : Type} [One α] [Zero α] (a : Arith α) (s s1 : World α)
    (i : Int) (h : updateAt a s i = .ok s1) (hs : Homogeneous s) : Homogeneous s1 := by
  unfold updateAt at h
  split at h
  · rename_i pPos vPos hp hv
    cases h
    constructor
    · intro q hq
      rcases List.mem_or_eq_of_mem_set hq with hq | rfl
      · exact hs.1 q hq
      · exact hs.1 pPos (readAt_mem _ _ _ hp)
    · intro q hq
      rcases List.mem_or_eq_of_mem_set hq with hq | rfl
      · exact hs.2 q hq
      · exact hs.2 vPos (readAt_mem _ _ _ hv)
  · cases h

theorem forEach_homogeneous {α : Type} [One α] [Zero α] (a : Arith α) :
    ∀ (is : List Int) (s s1 : World α), forEach a is s = .ok s1 → Homogeneous s →
      Homogeneous s1 := by
  intro is
  induction is with
  | nil =>
    intro s s1 h hs
    cases h
    exact hs
  | cons i is ih =>
    intro s s1 h hs
    unfold forEach at h
    split at h
    · rename_i s2 h2
      exact ih s2 s1 h (updateAt_homogeneous a s s2 i h2 hs)
    · cases h

theorem updateParticles_homogeneous {α : Type} [One α] [Zero α] (a : Arith α)
    (start end_ : Int) (s s1 : World α) (h : updateParticles a start end_ s = .ok s1)
    (hs : Homogeneous s) : Homogeneous s1 := by
  unfold updateParticles at h
  split at h
  · rename_i s2 h2
    have h3 := forEach_homogeneous a _ s s2 h2 hs
    unfold chanSend at h
    split at h
    · cases h
      exact h3
    · cases h
  · cases h

theorem runWorkers_homogeneous {α : Type} [One α] [Zero α] (a : Arith α) (n : Nat) :
    ∀ (order : List Nat) (s s1 : World α), runWorkers a n order s = .ok s1 → Homogeneous s →
      Homogeneous s1 := by
  intro order
  induction order with
  | nil =>
    intro s s1 h hs
    cases h
    exact hs
  | cons w ws ih =>
    intro s s1 h hs
    unfold runWorkers at h
    split at h
    · rename_i s2 h2
      exact ih s2 s1 h (updateParticles_homogeneous a _ _ s s2 h2 hs)
    · cases h

theorem tick_homogeneous {α : Type} [One α] [Zero α] (a : Arith α) (s s1 : World α)
    (h : tick a s = .ok s1) (hs : Homogeneous s) : Homogeneous s1 := by
  unfold tick tickIn at h
  split at h
  · rename_i s2 h2
    have h3 := runWorkers_homogeneous a _ _ s s2 h2 hs
    unfold awaitAll at h
    split at h
    · cases h
      exact h3
    · cases h
  · cases h

theorem ticks_homogeneous {α : Type} [One α] [Zero α] (a : Arith α) :
    ∀ (k : Nat) (s s1 : World α), ticks a k s = .ok s1 → Homogeneous s → Homogeneous s1 := by
  intro k
  induction k with
  | zero =>
    intro s s1 h hs
    cases h
    exact hs
  | succ k ih =>
    intro s s1 h hs
    unfold ticks at h
    split at h
    · rename_i s2 h2
      exact ih s2 s1 h (tick_homogeneous a s s2 h2 hs)
    · cases h

theorem ticks_eq_iterate {α : Type} (a : Arith α) :
    ∀ (k : Nat) (s : World α), s.particles.length = s.velocities.length → s.done = 0 →
      ticks a k s = .ok ((advance a)^[k] s) := by
  intro k
  induction k with
  | zero =>
    intro s _ _
    rfl
  | succ k ih =>
    intro s hlen hdone
    have h1 : tick a s = .ok (advance a s) := tickIn_perm a s _ hlen hdone (List.Perm.refl _)
    unfold ticks
    rw [h1]
    simp only [Function.iterate_succ_apply]
    exact ih (advance a s) (by simp [advance, hlen]) (by simp [advance, hdone])

theorem iterate_advance_done {α : Type} (a : Arith α) (k : Nat) (s : World α) :
    ((advance a)^[k] s).done = s.done := by
  induction k generalizing s with
  | zero => rfl
  | succ k ih =>
    rw [Function.iterate_succ_apply, ih]
    rfl

theorem updateLoop_total {α : Type} (a : Arith α) (s : World α) (start end_ : Int)
    (hlen : s.particles.length = s.velocities.length)
    (hstart : 0 ≤ start ∨ clampEnd end_ s.particles.length ≤ start) :
    ∃ s1, updateLoop a start end_ s = .ok s1 ∧ s1.done = s.done ∧
      s1.particles.length = s.particles.length ∧
      s1.velocities.length = s.velocities.length := by
  obtain ⟨s1, h1, hd1, hP1⟩ := forEach_progress a s hlen
    (loopIndices start (clampEnd end_ s.particles.length)) s _ (progress_init a s)
    (by
      intro i hi
      rw [mem_loopIndices] at hi
      have hc : clampEnd end_ s.particles.length ≤ (s.particles.length : Int) := by
        unfold clampEnd
        split <;> omega
      refine ⟨by omega, by omega, fun h => h⟩)
    (nodup_loopIndices _ _)
  exact ⟨s1, h1, hd1, hP1.1, hP1.2.1⟩

/-! ## Invariant of the interleaved tick -/

theorem processed_set_iff (n : Nat) (ws : List WorkerPc) (w : Nat) (pc pc1 : WorkerPc)
    (h : ws[w]? = some pc) (j : Int) (E : Prop)
    (hE : j ∈ workerIndices n w → (pc1.passed j ↔ pc.passed j ∨ E))
    (hE2 : E → j ∈ workerIndices n w) :
    processed n (ws.set w pc1) j ↔ processed n ws j ∨ E := by
  have hw : w < ws.length := (List.getElem?_eq_some.mp h).1
  have hset : (ws.set w pc1)[w]? = some pc1 := by simp [List.getElem?_set, hw]
  constructor
  · rintro ⟨v, q, hv, hm, hp⟩
    by_cases hvw : v = w
    · subst hvw
      rw [hset] at hv
      cases hv
      rcases (hE hm).mp hp with h1 | h1
      · exact Or.inl ⟨v, pc, h, hm, h1⟩
      · exact Or.inr h1
    · rw [List.getElem?_set_ne (Ne.symm hvw)] at hv
      exact Or.inl ⟨v, q, hv, hm, hp⟩
  · rintro (⟨v, q, hv, hm, hp⟩ | e)
    · by_cases hvw : v = w
      · subst hvw
        rw [h] at hv
        cases hv
        exact ⟨v, pc1, hset, hm, (hE hm).mpr (Or.inl hp)⟩
      · exact ⟨v, q, by rw [List.getElem?_set_ne (Ne.symm hvw)]; exact hv, hm, hp⟩
    · exact ⟨w, pc1, hset, hE2 e, (hE (hE2 e)).mpr (Or.inr e)⟩

theorem processed_append_entry (n : Nat) (ws : List WorkerPc) (st en : Int) (j : Int) :
    processed n (ws ++ [.entry st en]) j ↔ processed n ws j := by
  constructor
  · rintro ⟨v, q, hv, hm, hp⟩
    by_cases hvl : v < ws.length
    · rw [List.getElem?_append_left hvl] at hv
      exact ⟨v, q, hv, hm, hp⟩
    · rw [List.getElem?_append_right (Nat.le_of_not_lt hvl)] at hv
      by_cases h0 : v - ws.length = 0
      · rw [h0] at hv
        cases hv
        exact hp.elim
      · obtain ⟨m, hm1⟩ := Nat.exists_eq_succ_of_ne_zero h0
        rw [hm1] at hv
        cases hv
  · rintro ⟨v, q, hv, hm, hp⟩
    have hvl : v < ws.length := (List.getElem?_eq_some.mp hv).1
    exact ⟨v, q, by rw [List.getElem?_append_left hvl]; exact hv, hm, hp⟩

theorem count_returned_set (ws : List WorkerPc) (w : Nat) (pc pc1 : WorkerPc)
    (h : ws[w]? = some pc) (hpc : pc ≠ .returned) :
    (ws.set w pc1).count .returned =
      ws.count .returned + (if pc1 = .returned then 1 else 0) := by
  obtain ⟨hw, hget⟩ := List.getElem?_eq_some.mp h
  rw [List.count_set _ _ _ _ hw, hget]
  simp [hpc]

theorem mainOk_worker {α : Type} (n : Nat) (world world1 : World α) (batch : Int)
    (mainPc : MainPc) (ws : List WorkerPc) (panicked : Bool) (w : Nat) (pc pc1 : WorkerPc)
    (h : ws[w]? = some pc) (hpc : pc ≠ .returned)
    (hdone : world1.done = world.done + (if pc1 = .returned then 1 else 0))
    (hM : MainOk n ⟨world, batch, mainPc, ws, panicked⟩) :
    MainOk n ⟨world1, batch, mainPc, ws.set w pc1, panicked⟩ := by
  have hmem : pc ∈ ws := List.getElem?_mem h
  cases mainPc with
  | start =>
    obtain ⟨h1, _⟩ := hM
    simp only at h1
    rw [h1] at hmem
    cases hmem
  | spawn i =>
    obtain ⟨h1, h2, h3, h4⟩ := hM
    simp only at h2 h3 h4
    refine ⟨h1, by simpa using h2, ?_, h4⟩
    simp only
    rw [count_returned_set ws w pc pc1 h hpc, hdone, h3]
  | wait =>
    obtain ⟨h1, h2⟩ := hM
    simp only at h1 h2
    refine ⟨by simpa using h1, ?_⟩
    simp only
    rw [count_returned_set ws w pc pc1 h hpc, hdone, h2]
  | drain =>
    obtain ⟨_, h2, _⟩ := hM
    exact absurd (h2 pc hmem) hpc
  | resumed =>
    obtain ⟨_, h2, _⟩ := hM
    exact absurd (h2 pc hmem) hpc

theorem wf_set (n : Nat) (ws : List WorkerPc) (w : Nat) (pc1 : WorkerPc)
    (hwf : ∀ (v : Nat) (q : WorkerPc), ws[v]? = some q → q.WF n v) (h1 : pc1.WF n w) :
    ∀ (v : Nat) (q : WorkerPc), (ws.set w pc1)[v]? = some q → q.WF n v := by
  intro v q hv
  by_cases hvw : v = w
  · subst hvw
    rw [List.getElem?_set] at hv
    simp only [if_true] at hv
    split at hv
    · cases hv
      exact h1
    · cases hv
  · rw [List.getElem?_set_ne (Ne.symm hvw)] at hv
    exact hwf v q hv

theorem stepWorker_inv {α : Type} (a : Arith α) (s0 : World α)
    (hlen : s0.particles.length = s0.velocities.length) (c c1 : Config α) (w : Nat)
    (hI : Inv a s0 c) (h : stepWorker a c w = some c1) : Inv a s0 c1 := by
  obtain ⟨world, batch, mainPc, ws, panicked⟩ := c
  obtain ⟨halive, hprog, hwf, hmain⟩ := hI
  simp only at halive hprog hwf
  unfold stepWorker at h
  simp only at h
  split at h
  · rename_i start end_ hw
    cases h
    obtain ⟨rfl, rfl⟩ := hwf w _ hw
    refine ⟨halive, ?_, ?_, ?_⟩
    · refine progress_congr a s0 world _ _ (fun j => Iff.symm ?_) hprog
      refine (processed_set_iff _ ws w _ _ hw j False ?_ False.elim).trans (or_iff_left id)
      intro hj
      rw [mem_workerIndices] at hj
      simp only [WorkerPc.passed, workerStart, or_false, iff_false]
      omega
    · refine wf_set _ ws w _ hwf ⟨?_, le_refl _⟩
      rw [hprog.1]
    · exact mainOk_worker _ world world batch mainPc ws panicked w _ _ hw (by simp)
        (by simp) hmain
  · rename_i i e hw
    obtain ⟨he, hstart⟩ := hwf w _ hw
    split at h
    · rename_i hlt
      have hi : i ∈ workerIndices s0.particles.length w := by
        unfold workerIndices
        rw [mem_loopIndices, ← he]
        exact ⟨hstart, hlt⟩
      have hb := workerIndices_bounds _ w i hi
      have hnot : ¬ processed s0.particles.length ws i := by
        rintro ⟨v, q, hv, hm, hp⟩
        by_cases hvw : v = w
        · subst hvw
          rw [hw] at hv
          cases hv
          exact lt_irrefl _ hp
        · exact workerIndices_disjoint _ v w hvw i hm hi
      obtain ⟨s1, h1, hd1, hP1⟩ := updateAt_progress a s0 world _ i hlen hprog hb.1 hb.2 hnot
      rw [h1] at h
      cases h
      refine ⟨halive, ?_, ?_, ?_⟩
      · refine progress_congr a s0 s1 _ _ (fun j => Iff.symm ?_) hP1
        refine processed_set_iff _ ws w _ _ hw j (j = i) ?_ (fun hj => hj ▸ hi)
        intro _
        simp only [WorkerPc.passed]
        omega
      · exact wf_set _ ws w _ hwf ⟨he, by omega⟩
      · exact mainOk_worker _ world s1 batch mainPc ws panicked w _ _ hw (by simp)
          (by simp [hd1]) hmain
    · rename_i hge
      by_cases hd : world.done < threads
      · simp only [chanSend, hd, if_true] at h
        cases h
        refine ⟨halive, ?_, ?_, ?_⟩
        · have hP : Progress a s0 (processed s0.particles.length ws)
              { world with done := world.done + 1 } := ⟨hprog.1, hprog.2.1, hprog.2.2⟩
          refine progress_congr a s0 _ _ _ (fun j => Iff.symm ?_) hP
          refine (processed_set_iff _ ws w _ _ hw j False ?_ False.elim).trans (or_iff_left id)
          intro hj
          unfold workerIndices at hj
          rw [mem_loopIndices, ← he] at hj
          simp only [WorkerPc.passed, or_false, true_iff]
          omega
        · exact wf_set _ ws w _ hwf trivial
        · exact mainOk_worker _ world _ batch mainPc ws panicked w _ _ hw (by simp)
            (by simp) hmain
      · simp [chanSend, hd] at h
  · cases h

theorem stepMain_inv {α : Type} (a : Arith α) (s0 : World α) (c c1 : Config α)
    (hI : Inv a s0 c) (h : stepMain c = some c1) : Inv a s0 c1 := by
  obtain ⟨world, batch, mainPc, ws, panicked⟩ := c
  obtain ⟨halive, hprog, hwf, hmain⟩ := hI
  simp only at halive hprog hwf
  unfold stepMain at h
  cases mainPc with
  | start =>
    simp only at h
    cases h
    obtain ⟨h1, h2⟩ := hmain
    simp only at h1 h2
    subst h1
    refine ⟨halive, hprog, hwf, ?_⟩
    refine ⟨Nat.zero_le _, rfl, ?_, ?_⟩
    · simpa using h2
    · simp only
      rw [hprog.1]
  | spawn i =>
    obtain ⟨h1, h2, h3, h4⟩ := hmain
    simp only at h2 h3 h4 h
    split at h
    · rename_i hlt
      cases h
      refine ⟨halive, ?_, ?_, ?_⟩
      · exact progress_congr a s0 world _ _
          (fun j => (processed_append_entry _ ws _ _ j).symm) hprog
      · intro v q hv
        by_cases hvl : v < ws.length
        · rw [List.getElem?_append_left hvl] at hv
          exact hwf v q hv
        · rw [List.getElem?_append_right (Nat.le_of_not_lt hvl)] at hv
          by_cases h0 : v - ws.length = 0
          · rw [h0] at hv
            cases hv
            have hv2 : v = i := by omega
            subst hv2
            exact ⟨by rw [h4]; rfl, by rw [h4]; rfl⟩
          · obtain ⟨m, hm1⟩ := Nat.exists_eq_succ_of_ne_zero h0
            rw [hm1] at hv
            cases hv
      · refine ⟨hlt, by simp [h2], ?_, h4⟩
        simp only
        rw [List.count_append, h3]
        simp
    · rename_i hge
      cases h
      refine ⟨halive, hprog, hwf, ?_⟩
      exact ⟨by simp only; omega, h3⟩
  | wait =>
    obtain ⟨h1, h2⟩ := hmain
    simp only at h1 h2 h
    split at h
    · rename_i h4
      cases h
      refine ⟨halive, hprog, hwf, h1, ?_, ?_⟩
      · intro pc hpc
        have : ws.count .returned = ws.length := by
          rw [← h2, h4, h1]
          rfl
        exact (List.count_eq_length.mp this pc hpc).symm
      · simp only [h4, threads]
        omega
    · cases h
      exact ⟨halive, hprog, hwf, h1, h2⟩
  | drain =>
    obtain ⟨h1, h2, h3⟩ := hmain
    simp only at h1 h2 h3 h
    split at h
    · cases h
      exact ⟨halive, ⟨hprog.1, hprog.2.1, hprog.2.2⟩, hwf, h1, h2, by simp only; omega⟩
    · rename_i h0
      cases h
      exact ⟨halive, hprog, hwf, h1, h2, by simp only; omega⟩
  | resumed =>
    simp only at h
    cases h

theorem step_inv {α : Type} (a : Arith α) (s0 : World α)
    (hlen : s0.particles.length = s0.velocities.length) (c c1 : Config α) (t : Tid)
    (hI : Inv a s0 c) (h : step a c t = some c1) : Inv a s0 c1 := by
  unfold step at h
  rw [hI.alive] at h
  cases t with
  | main => exact stepMain_inv a s0 c c1 hI h
  | worker w => exact stepWorker_inv a s0 hlen c c1 w hI h

theorem run_inv {α : Type} (a : Arith α) (s0 : World α)
    (hlen : s0.particles.length = s0.velocities.length) :
    ∀ (sched : List Tid) (c c1 : Config α), Inv a s0 c → run a c sched = some c1 →
      Inv a s0 c1 := by
  intro sched
  induction sched with
  | nil =>
    intro c c1 hI h
    cases h
    exact hI
  | cons t ts ih =>
    intro c c1 hI h
    unfold run at h
    split at h
    · rename_i c2 h2
      exact ih c2 c1 (step_inv a s0 hlen c c2 t hI h2) h
    · cases h

theorem initial_inv {α : Type} (a : Arith α) (s0 : World α) (hdone : s0.done = 0) :
    Inv a s0 (initial s0) := by
  refine ⟨rfl, ?_, ?_, rfl, hdone⟩
  · refine progress_congr a s0 s0 _ _ (fun j => ?_) (progress_init a s0)
    constructor
    · exact False.elim
    · rintro ⟨v, q, hv, _, _⟩
      simp [initial] at hv
  · intro v q hv
    simp [initial] at hv

theorem inv_done_le {α : Type} (a : Arith α) (s0 : World α) (c : Config α)
    (hI : Inv a s0 c) : c.world.done ≤ threads := by
  obtain ⟨world, batch, mainPc, ws, panicked⟩ := c
  obtain ⟨_, _, _, hmain⟩ := hI
  cases mainPc with
  | start =>
    obtain ⟨_, h2⟩ := hmain
    simp only at h2 ⊢
    omega
  | spawn i =>
    obtain ⟨h1, h2, h3, _⟩ := hmain
    simp only at h2 h3 ⊢
    have := List.count_le_length WorkerPc.returned ws
    omega
  | wait =>
    obtain ⟨h1, h2⟩ := hmain
    simp only at h1 h2 ⊢
    have := List.count_le_length WorkerPc.returned ws
    omega
  | drain => exact hmain.2.2
  | resumed =>
    obtain ⟨_, _, h3⟩ := hmain
    simp only at h3 ⊢
    omega

theorem inv_send_enabled {α : Type} (a : Arith α) (s0 : World α) (c : Config α)
    (hI : Inv a s0 c) (w : Nat) (i e : Int) (hw : c.workers[w]? = some (.loop i e))
    (hge : ¬ i < e) : ∃ c1, stepWorker a c w = some c1 := by
  obtain ⟨world, batch, mainPc, ws, panicked⟩ := c
  obtain ⟨_, _, _, hmain⟩ := hI
  simp only at hw
  have hmem : WorkerPc.loop i e ∈ ws := List.getElem?_mem hw
  have hcount : ws.count .returned < ws.length := by
    refine lt_of_le_of_ne (List.count_le_length _ _) ?_
    intro h
    have := List.count_eq_length.mp h _ hmem
    cases this
  have hd : world.done < threads := by
    cases mainPc with
    | start =>
      obtain ⟨h1, _⟩ := hmain
      simp only at h1
      rw [h1] at hmem
      cases hmem
    | spawn k =>
      obtain ⟨h1, h2, h3, _⟩ := hmain
      simp only at h2 h3
      omega
    | wait =>
      obtain ⟨h1, h2⟩ := hmain
      simp only at h1 h2
      omega
    | drain =>
      have := hmain.2.1 _ hmem
      cases this
    | resumed =>
      have := hmain.2.1 _ hmem
      cases this
  unfold stepWorker
  simp only [hw, hge, if_false, chanSend, hd, if_true]
  exact ⟨_, rfl⟩

theorem inv_all_returned {α : Type} (a : Arith α) (s0 : World α) (c : Config α)
    (hlen : s0.particles.length = s0.velocities.length) (hI : Inv a s0 c)
    (h4 : c.workers.length = threads) (hall : ∀ pc ∈ c.workers, pc = .returned) :
    c.world.particles = (advance a s0).particles ∧
    c.world.velocities = (advance a s0).velocities := by
  refine progress_full a s0 c.world _ hlen hI.prog ?_
  intro j hj
  obtain ⟨w, hw, hm⟩ := workerIndices_cover s0.particles.length (j : Int) (by omega)
    (by exact_mod_cast hj)
  have hwl : w < c.workers.length := by omega
  refine ⟨w, c.workers[w], List.getElem?_eq_getElem hwl, hm, ?_⟩
  rw [hall _ (List.getElem_mem _)]
  trivial

theorem inv_past_barrier {α : Type} (a : Arith α) (s0 : World α) (c : Config α)
    (hI : Inv a s0 c) (hexit : c.main = .drain ∨ c.main = .resumed) :
    c.workers.length = threads ∧ ∀ pc ∈ c.workers, pc = .returned := by
  obtain ⟨world, batch, mainPc, ws, panicked⟩ := c
  obtain ⟨_, _, _, hmain⟩ := hI
  simp only at hexit
  rcases hexit with rfl | rfl
  · exact ⟨hmain.1, hmain.2.1⟩
  · exact ⟨hmain.1, hmain.2.1⟩

theorem stepWorker_returned {α : Type} (a : Arith α) (c : Config α) (w : Nat)
    (hall : ∀ pc ∈ c.workers, pc = .returned) : stepWorker a c w = none := by
  unfold stepWorker
  split
  · rename_i hw
    have := hall _ (List.getElem?_mem hw)
    cases this
  · rename_i hw
    have := hall _ (List.getElem?_mem hw)
    cases this
  · rfl

theorem run_past_barrier {α : Type} (a : Arith α) :
    ∀ (sched : List Tid) (c c1 : Config α), (∀ pc ∈ c.workers, pc = .returned) →
      (c.main = .drain ∨ c.main = .resumed) → run a c sched = some c1 →
      c1.world.particles = c.world.particles ∧ c1.world.velocities = c.world.velocities ∧
      c1.workers = c.workers ∧ (c1.main = .drain ∨ c1.main = .resumed) := by
  intro sched
  induction sched with
  | nil =>
    intro c c1 _ hexit h
    cases h
    exact ⟨rfl, rfl, rfl, hexit⟩
  | cons t ts ih =>
    intro c c1 hall hexit h
    unfold run at h
    split at h
    · rename_i c2 h2
      have key : c2.world.particles = c.world.particles ∧
          c2.world.velocities = c.world.velocities ∧ c2.workers = c.workers ∧
          (c2.main = .drain ∨ c2.main = .resumed) := by
        unfold step at h2
        split at h2
        · cases h2
        · cases t with
          | main =>
            simp only at h2
            unfold stepMain at h2
            rcases hexit with hm | hm
            · rw [hm] at h2
              simp only at h2
              split at h2
              · cases h2
                exact ⟨rfl, rfl, rfl, Or.inl rfl⟩
              · cases h2
                exact ⟨rfl, rfl, rfl, Or.inr rfl⟩
            · rw [hm] at h2
              cases h2
          | worker w =>
            simp only at h2
            rw [stepWorker_returned a c w hall] at h2
            cases h2
      obtain ⟨k1, k2, k3, k4⟩ := key
      obtain ⟨r1, r2, r3, r4⟩ := ih c2 c1 (by rw [k3]; exact hall) k4 h
      exact ⟨r1.trans k1, r2.trans k2, r3.trans k3, r4⟩
    · cases h

/-! ## The unit example under rounded arithmetic -/

theorem approx_bound (u r e lo hi M : ℝ) (_hu0 : 0 ≤ u) (hu : u ≤ 1 / 1000000)
    (h : |r - e| ≤ u * |e|) (hlo : lo ≤ e) (hhi : e ≤ hi) (hM1 : -M ≤ lo) (hM2 : hi ≤ M) :
    lo - M / 1000000 ≤ r ∧ r ≤ hi + M / 1000000 := by
  have he : |e| ≤ M := abs_le.mpr ⟨by linarith, by linarith⟩
  have hM : 0 ≤ M := le_trans (abs_nonneg e) he
  have hb : u * |e| ≤ M / 1000000 := by
    have h1 : u * |e| ≤ (1 / 1000000) * M :=
      mul_le_mul hu he (abs_nonneg e) (by norm_num)
    linarith
  have := abs_le.mp (le_trans h hb)
  constructor <;> linarith [this.1, this.2]

theorem approx_zero (u r e : ℝ) (h : |r - e| ≤ u * |e|) (he : e = 0) : r = 0 := by
  subst he
  simp at h
  exact h

theorem exact_accurate (u : ℝ) (hu : 0 ≤ u) : Accurate (exactArith ℝ Real.sqrt) u := by
  refine ⟨?_, ?_, ?_, ?_, rfl, rfl, ?_⟩
  · intro x y
    simp only [exactArith, sub_self, abs_zero]
    positivity
  · intro x y
    simp only [exactArith, sub_self, abs_zero]
    positivity
  · intro x y
    simp only [exactArith, sub_self, abs_zero]
    positivity
  · simp only [exactArith, sub_self, abs_zero]
    positivity
  · intro v
    have : speed (exactArith ℝ Real.sqrt) v = Real.sqrt (v.x ^ 2 + v.y ^ 2 + v.z ^ 2) := by
      show Real.sqrt (v.x * v.x + Real.sqrt (v.y * v.y + v.z * v.z) *
        Real.sqrt (v.y * v.y + v.z * v.z)) = Real.sqrt (v.x ^ 2 + v.y ^ 2 + v.z ^ 2)
      rw [Real.mul_self_sqrt (by nlinarith [sq_nonneg v.y, sq_nonneg v.z])]
      congr 1
      ring
    rw [this, sub_self, abs_zero]
    positivity

theorem mul_bounds_pos (x y a1 a2 b1 b2 : ℝ) (ha : 0 ≤ a1) (hx1 : a1 ≤ x) (hx2 : x ≤ a2)
    (hb : 0 ≤ b1) (hy1 : b1 ≤ y) (hy2 : y ≤ b2) : a1 * b1 ≤ x * y ∧ x * y ≤ a2 * b2 := by
  constructor
  · exact mul_le_mul hx1 hy1 hb (by linarith)
  · exact mul_le_mul hx2 hy2 (by linarith) (by linarith)

theorem mul_bounds_pos_neg (x y a1 a2 b1 b2 : ℝ) (ha : 0 ≤ a1) (hx1 : a1 ≤ x) (hx2 : x ≤ a2)
    (hy1 : b1 ≤ y) (hy2 : y ≤ b2) (hb : b2 ≤ 0) : a2 * b1 ≤ x * y ∧ x * y ≤ a1 * b2 := by
  have h := mul_bounds_pos x (-y) a1 a2 (-b2) (-b1) ha hx1 hx2 (by linarith) (by linarith)
    (by linarith)
  constructor <;> nlinarith [h.1, h.2]

theorem accurate_t (a : Arith ℝ) (u : ℝ) (hu0 : 0 ≤ u) (hu : u ≤ 1 / 1000000)
    (hA : Accurate a u) :
    (999999 : ℝ) / 100000000 ≤ a.t ∧ a.t ≤ (1000001 : ℝ) / 100000000 := by
  have ht := approx_bound u a.t (1 / 100) (1 / 100) (1 / 100) (1 / 100) hu0 hu hA.t
    le_rfl le_rfl (by norm_num) le_rfl
  constructor
  · linarith [ht.1]
  · linarith [ht.2]

theorem accurate_gz (a : Arith ℝ) (u d : ℝ) (hu0 : 0 ≤ u) (hu : u ≤ 1 / 1000000)
    (hA : Accurate a u) (hd : |d - 1| ≤ u * |1|) :
    (-900004 : ℝ) / 10000 ≤ a.mul (a.div 10 d) (-9) ∧
    a.mul (a.div 10 d) (-9) ≤ (-899996 : ℝ) / 10000 := by
  have hd := approx_bound u d 1 1 1 1 hu0 hu hd le_rfl le_rfl (by norm_num) le_rfl
  have hdpos : 0 < d := by linarith [hd.1]
  have hq1 : (999998 : ℝ) / 100000 ≤ 10 / d := by
    rw [le_div_iff₀ hdpos]
    linarith [hd.2]
  have hq2 : 10 / d ≤ (1000002 : ℝ) / 100000 := by
    rw [div_le_iff₀ hdpos]
    linarith [hd.1]
  have hq := approx_bound u (a.div 10 d) (10 / d) _ _ 11 hu0 hu (hA.div 10 d) hq1 hq2
    (by norm_num) (by norm_num)
  have hg := approx_bound u (a.mul (a.div 10 d) (-9)) (a.div 10 d * -9)
    (-900003 / 10000) (-899997 / 10000) 91 hu0 hu (hA.mul _ _) (by linarith [hq.2])
    (by linarith [hq.1]) (by norm_num) (by norm_num)
  constructor
  · linarith [hg.1]
  · linarith [hg.2]

theorem accurate_posz (a : Arith ℝ) (u gz : ℝ) (hu0 : 0 ≤ u) (hu : u ≤ 1 / 1000000)
    (hA : Accurate a u) (g1 : (-900004 : ℝ) / 10000 ≤ gz) (g2 : gz ≤ (-899996 : ℝ) / 10000) :
    (99954 : ℝ) / 10000 ≤ a.add (a.add 10 0) (a.mul (a.mul (a.mul (1 / 2) a.t) a.t) gz) ∧
    a.add (a.add 10 0) (a.mul (a.mul (a.mul (1 / 2) a.t) a.t) gz) ≤ (99956 : ℝ) / 10000 := by
  obtain ⟨t1, t2⟩ := accurate_t a u hu0 hu hA
  have hm1 := approx_bound u (a.mul (1 / 2) a.t) (1 / 2 * a.t)
    (499999 / 100000000) (500001 / 100000000) (1 / 100) hu0 hu (hA.mul _ _) (by linarith)
    (by linarith) (by norm_num) (by norm_num)
  generalize a.mul (1 / 2) a.t = m1 at hm1 ⊢
  have m11 : (499998 : ℝ) / 100000000 ≤ m1 := by linarith [hm1.1]
  have m12 : m1 ≤ (500002 : ℝ) / 100000000 := by linarith [hm1.2]
  clear hm1
  have hm2e := mul_bounds_pos m1 a.t _ _ _ _ (by norm_num) m11 m12 (by norm_num) t1 t2
  have hm2 := approx_bound u (a.mul m1 a.t) (m1 * a.t) (49999 / 1000000000)
    (50001 / 1000000000) (1 / 1000) hu0 hu (hA.mul _ _) (by linarith [hm2e.1])
    (by linarith [hm2e.2]) (by norm_num) (by norm_num)
  clear hm2e m11 m12
  generalize a.mul m1 a.t = m2 at hm2 ⊢
  have m21 : (49997 : ℝ) / 1000000000 ≤ m2 := by linarith [hm2.1]
  have m22 : m2 ≤ (50003 : ℝ) / 1000000000 := by linarith [hm2.2]
  clear hm2
  have hm3e := mul_bounds_pos_neg m2 gz _ _ _ _ (by norm_num) m21 m22 g1 g2 (by norm_num)
  have hm3 := approx_bound u (a.mul m2 gz) (m2 * gz) (-45004 / 10000000) (-44996 / 10000000)
    (1 / 100) hu0 hu (hA.mul _ _) (by linarith [hm3e.1]) (by linarith [hm3e.2])
    (by norm_num) (by norm_num)
  clear hm3e m21 m22
  generalize a.mul m2 gz = m3 at hm3 ⊢
  have hs := approx_bound u (a.add 10 0) (10 + 0) 10 10 10 hu0 hu (hA.add _ _)
    (by norm_num) (by norm_num) (by norm_num) le_rfl
  generalize a.add 10 0 = sz at hs ⊢
  have hz := approx_bound u (a.add sz m3) (sz + m3) (999548 / 100000) (999552 / 100000) 10
    hu0 hu (hA.add _ _) (by linarith [hs.1, hm3.1]) (by linarith [hs.2, hm3.2])
    (by norm_num) (by norm_num)
  constructor
  · linarith [hz.1]
  · linarith [hz.2]

theorem accurate_posx (a : Arith ℝ) (u : ℝ) (hu0 : 0 ≤ u) (hu : u ≤ 1 / 1000000)
    (hA : Accurate a u) :
    (99999 : ℝ) / 10000000 ≤ a.add (a.add 0 (a.mul 1 a.t)) 0 ∧
    a.add (a.add 0 (a.mul 1 a.t)) 0 ≤ (100001 : ℝ) / 10000000 := by
  obtain ⟨t1, t2⟩ := accurate_t a u hu0 hu hA
  have hx1 := approx_bound u (a.mul 1 a.t) (1 * a.t) (999999 / 100000000)
    (1000001 / 100000000) (1 / 50) hu0 hu (hA.mul _ _) (by linarith) (by linarith)
    (by norm_num) (by norm_num)
  generalize a.mul 1 a.t = mx at hx1 ⊢
  have hx2 := approx_bound u (a.add 0 mx) (0 + mx) (999997 / 100000000)
    (1000003 / 100000000) (1 / 50) hu0 hu (hA.add _ _) (by linarith [hx1.1])
    (by linarith [hx1.2]) (by norm_num) (by norm_num)
  clear hx1
  generalize a.add 0 mx = sx at hx2 ⊢
  have hx3 := approx_bound u (a.add sx 0) (sx + 0) (999995 / 100000000)
    (1000005 / 100000000) (1 / 50) hu0 hu (hA.add _ _) (by linarith [hx2.1])
    (by linarith [hx2.2]) (by norm_num) (by norm_num)
  constructor
  · linarith [hx3.1]
  · linarith [hx3.2]

theorem accurate_velz (a : Arith ℝ) (u gz : ℝ) (hu0 : 0 ≤ u) (hu : u ≤ 1 / 1000000)
    (hA : Accurate a u) (g1 : (-900004 : ℝ) / 10000 ≤ gz) (g2 : gz ≤ (-899996 : ℝ) / 10000) :
    (-90003 : ℝ) / 100000 ≤ a.add 0 (a.mul gz a.t) ∧
    a.add 0 (a.mul gz a.t) ≤ (-89997 : ℝ) / 100000 := by
  obtain ⟨t1, t2⟩ := accurate_t a u hu0 hu hA
  have hwe := mul_bounds_pos_neg a.t gz _ _ _ _ (by norm_num) t1 t2 g1 g2 (by norm_num)
  have hw1 := approx_bound u (a.mul gz a.t) (gz * a.t) (-90001 / 100000) (-89999 / 100000) 1
    hu0 hu (hA.mul _ _) (by linarith [hwe.1, mul_comm gz a.t])
    (by linarith [hwe.2, mul_comm gz a.t]) (by norm_num) (by norm_num)
  clear hwe
  generalize a.mul gz a.t = mz at hw1 ⊢
  have hw2 := approx_bound u (a.add 0 mz) (0 + mz) (-90002 / 100000) (-89998 / 100000) 1
    hu0 hu (hA.add _ _) (by linarith [hw1.1]) (by linarith [hw1.2]) (by norm_num)
    (by norm_num)
  constructor
  · linarith [hw2.1]
  · linarith [hw2.2]

theorem accurate_velx (a : Arith ℝ) (u : ℝ) (hu0 : 0 ≤ u) (hu : u ≤ 1 / 1000000)
    (hA : Accurate a u) :
    (99999 : ℝ) / 100000 ≤ a.add 1 0 ∧ a.add 1 0 ≤ (100001 : ℝ) / 100000 := by
  have hv := approx_bound u (a.add 1 0) (1 + 0) 1 1 1 hu0 hu (hA.add _ _)
    (by norm_num) (by norm_num) (by norm_num) le_rfl
  constructor
  · linarith [hv.1]
  · linarith [hv.2]

theorem unit_example_bounds (a : Arith ℝ) (u : ℝ) (hu0 : 0 ≤ u) (hu : u ≤ 1 / 1000000)
    (hA : Accurate a u) :
    |speed a ⟨1, 0, 0, 0⟩ - 1| ≤ 1 / 1000000 ∧
    (gravity a ⟨0, 0, 10, 1⟩ ⟨1, 0, 0, 0⟩).x = 0 ∧
    (gravity a ⟨0, 0, 10, 1⟩ ⟨1, 0, 0, 0⟩).y = 0 ∧
    |(gravity a ⟨0, 0, 10, 1⟩ ⟨1, 0, 0, 0⟩).z - (-90)| ≤ 1 / 1000 ∧
    |(newPos a ⟨0, 0, 10, 1⟩ ⟨1, 0, 0, 0⟩).x - 0.01| ≤ 0.0001 ∧
    (newPos a ⟨0, 0, 10, 1⟩ ⟨1, 0, 0, 0⟩).y = 0 ∧
    |(newPos a ⟨0, 0, 10, 1⟩ ⟨1, 0, 0, 0⟩).z - 9.9955| ≤ 0.0001 ∧
    (newPos a ⟨0, 0, 10, 1⟩ ⟨1, 0, 0, 0⟩).w = 1 ∧
    |(newVel a ⟨0, 0, 10, 1⟩ ⟨1, 0, 0, 0⟩).x - 1| ≤ 0.0001 ∧
    (newVel a ⟨0, 0, 10, 1⟩ ⟨1, 0, 0, 0⟩).y = 0 ∧
    |(newVel a ⟨0, 0, 10, 1⟩ ⟨1, 0, 0, 0⟩).z - (-0.9)| ≤ 0.0001 ∧
    (newVel a ⟨0, 0, 10, 1⟩ ⟨1, 0, 0, 0⟩).w = 0 := by
  have hd0 := hA.speed ⟨1, 0, 0, 0⟩
  have hsq : Real.sqrt ((1 : ℝ) ^ 2 + 0 ^ 2 + 0 ^ 2) = 1 := by norm_num
  simp only [hsq] at hd0
  simp only [newPos, newVel, gravity, hA.half, hA.negNine]
  generalize speed a ⟨1, 0, 0, 0⟩ = d at hd0 ⊢
  have hd := approx_bound u d 1 1 1 1 hu0 hu hd0 le_rfl le_rfl (by norm_num) le_rfl
  have hz_div : a.div 0 d = 0 := approx_zero u _ _ (hA.div 0 d) (by simp)
  have hz_mul9 : a.mul 0 (-9) = 0 := approx_zero u _ _ (hA.mul 0 (-9)) (by simp)
  have hz_mult : a.mul 0 a.t = 0 := approx_zero u _ _ (hA.mul 0 a.t) (by simp)
  have hz_mulr : ∀ x, a.mul x 0 = 0 := fun x => approx_zero u _ _ (hA.mul x 0) (by simp)
  have hz_add : a.add 0 0 = 0 := approx_zero u _ _ (hA.add 0 0) (by simp)
  simp only [hz_div, hz_mul9, hz_mult, hz_mulr, hz_add]
  obtain ⟨g1, g2⟩ := accurate_gz a u d hu0 hu hA hd0
  have hz := accurate_posz a u _ hu0 hu hA g1 g2
  have hx := accurate_posx a u hu0 hu hA
  have hw := accurate_velz a u _ hu0 hu hA g1 g2
  have hv := accurate_velx a u hu0 hu hA
  refine ⟨?_, trivial, trivial, ?_, ?_, trivial, ?_, trivial, ?_, trivial, ?_, trivial⟩
  · rw [abs_le]
    constructor <;> linarith [hd.1, hd.2]
  · rw [abs_le]
    constructor <;> linarith
  · rw [abs_le]
    constructor <;> norm_num <;> linarith [hx.1, hx.2]
  · rw [abs_le]
    constructor <;> norm_num <;> linarith [hz.1, hz.2]
  · rw [abs_le]
    constructor <;> norm_num <;> linarith [hv.1, hv.2]
  · rw [abs_le]
    constructor <;> norm_num <;> linarith [hw.1, hw.2]

/-! ## A negative start -/

theorem loopIndices_head (start end_ : Int) (h : start < end_) :
    ∃ tl, loopIndices start end_ = start :: tl := by
  unfold loopIndices
  obtain ⟨k, hk⟩ : ∃ k, (end_ - start).toNat = k + 1 := ⟨(end_ - start).toNat - 1, by omega⟩
  rw [hk, List.range_succ_eq_map, List.map_cons]
  refine ⟨List.map (fun (k : Nat) => start + (k : Int)) (List.map Nat.succ (List.range k)), ?_⟩
  congr 1
  simp

theorem negative_start_panics {α : Type} (a : Arith α) (s : World α) (start end_ : Int)
    (hneg : start < 0) (hne : start < clampEnd end_ s.particles.length) :
    updateParticles a start end_ s = .error .indexOutOfRange := by
  obtain ⟨tl, htl⟩ := loopIndices_head start _ hne
  have hread : readAt s.particles start = none := by
    unfold readAt
    simp [hneg]
  have hbody : updateAt a s start = .error .indexOutOfRange := by
    unfold updateAt
    rw [hread]
  unfold updateParticles updateLoop
  rw [htl]
  simp [forEach, hbody]

/-! ## Claims -/

/-- C4: with `threads = 4` workers and `batchSize = (N + threads) / 4`, an index
lies in `[0, N)` exactly when some worker `w < 4` passes it through its loop,
the loop of worker `w` runs over `[w*B, min((w+1)*B, N))`, and for
`N = 1000000` the batch size is 250001 and the four ranges are
`[0,250001)`, `[250001,500002)`, `[500002,750003)`, `[750003,1000000)`. -/
theorem C4_worker_ranges_cover :
    (∀ (n : Nat) (i : Int),
      (0 ≤ i ∧ i < (n : Int)) ↔ ∃ w, w < threads ∧ i ∈ workerIndices n w) ∧
    (∀ (n w : Nat) (i : Int),
      i ∈ workerIndices n w ↔
        (w : Int) * batchSize n ≤ i ∧ i < min (((w : Int) + 1) * batchSize n) (n : Int)) ∧
    batchSize numParticles = 250001 ∧
    (∀ i : Int, i ∈ workerIndices numParticles 0 ↔ 0 ≤ i ∧ i < 250001) ∧
    (∀ i : Int, i ∈ workerIndices numParticles 1 ↔ 250001 ≤ i ∧ i < 500002) ∧
    (∀ i : Int, i ∈ workerIndices numParticles 2 ↔ 500002 ≤ i ∧ i < 750003) ∧
    (∀ i : Int, i ∈ workerIndices numParticles 3 ↔ 750003 ≤ i ∧ i < 1000000) := by
  have hB : batchSize numParticles = 250001 := by decide
  refine ⟨fun n i => ⟨fun h => workerIndices_cover n i h.1 h.2, ?_⟩, ?_, hB, ?_, ?_, ?_, ?_⟩
  · rintro ⟨w, _, hw⟩
    exact workerIndices_bounds n w i hw
  · intro n w i
    rw [mem_workerIndices, lt_min_iff]
  all_goals
    intro i
    rw [mem_workerIndices, hB]
    simp only [numParticles]
    omega

/-- C5: two distinct workers of one tick never pass the same index through
their loops: the clamped ranges `[w*B, min((w+1)*B, N))` are pairwise
disjoint. -/
theorem C5_worker_ranges_disjoint (n w1 w2 : Nat) (i : Int) (hne : w1 ≠ w2) :
    ¬ (i ∈ workerIndices n w1 ∧ i ∈ workerIndices n w2) :=
  fun h => workerIndices_disjoint n w1 w2 hne i h.1 h.2

theorem C5_worker_ranges_disjoint_witness :
    (1 : Int) ∈ workerIndices 5 0 ∧ ¬ ((1 : Int) ∈ workerIndices 5 0 ∧ (1 : Int) ∈ workerIndices 5 1) :=
  ⟨by decide, C5_worker_ranges_disjoint 5 0 1 1 (by decide)⟩

/-- C1: for equal-length slices and an empty `done`, a tick in which the four
workers run to completion (in any order) ends normally; afterwards every index
`i` in `[0, N)` holds the per-particle update applied once to the pre-tick
entries `particles[i]`, `velocities[i]`, the lengths are unchanged, and every
index in `[0, N)` occurs exactly once among the loop counter values of the
four workers.  The same slices result from every interleaving of the
goroutines in which all four workers have returned. -/
theorem C1_tick_updates_each_index_once {α : Type} (a : Arith α) (s : World α)
    (order : List Nat) (hlen : s.particles.length = s.velocities.length)
    (hdone : s.done = 0) (hperm : order.Perm (List.range threads)) :
    ∃ s1, tickIn a order s = .ok s1 ∧
      s1.particles.length = s.particles.length ∧
      s1.velocities.length = s.velocities.length ∧
      (∀ (i : Nat) (p v : Vec4 α), s.particles[i]? = some p → s.velocities[i]? = some v →
        s1.particles[i]? = some (newPos a p v) ∧ s1.velocities[i]? = some (newVel a p v)) ∧
      (∀ i : Int, 0 ≤ i → i < (s.particles.length : Int) →
        ((order.map (workerIndices s.particles.length)).flatten).count i = 1) ∧
      (∀ (sched : List Tid) (c : Config α), run a (initial s) sched = some c →
        c.workers.length = threads → (∀ pc ∈ c.workers, pc = .returned) →
        c.world.particles = s1.particles ∧ c.world.velocities = s1.velocities) := by
  refine ⟨advance a s, tickIn_perm a s order hlen hdone hperm, ?_, ?_, ?_, ?_, ?_⟩
  rotate_right
  · intro sched c hrun h4 hall
    exact inv_all_returned a s c hlen
      (run_inv a s hlen sched _ c (initial_inv a s hdone) hrun) h4 hall
  · simp [advance, hlen]
  · simp [advance, hlen]
  · intro i p v hp hv
    simp [advance, List.getElem?_zipWith, hp, hv]
  · intro i h0 hn
    have hnd : order.Nodup := hperm.nodup_iff.mpr (List.nodup_range _)
    apply List.count_eq_one_of_mem
    · rw [List.nodup_flatten]
      constructor
      · intro l hl
        obtain ⟨w, _, rfl⟩ := List.mem_map.mp hl
        exact nodup_loopIndices _ _
      · rw [List.pairwise_map]
        refine List.Nodup.pairwise_of_forall_ne hnd ?_
        intro w1 _ w2 _ hne j h1 h2
        exact workerIndices_disjoint _ w1 w2 hne j h1 h2
    · obtain ⟨w, hw, hm⟩ := workerIndices_cover s.particles.length i h0 hn
      rw [List.mem_flatten]
      exact ⟨_, List.mem_map.mpr ⟨w, hperm.mem_iff.mpr (List.mem_range.mpr hw), rfl⟩, hm⟩

theorem C1_tick_updates_each_index_once_witness :
    sampleWorld.particles.length = sampleWorld.velocities.length ∧ sampleWorld.done = 0 ∧
    [2, 0, 3, 1].Perm (List.range threads) ∧
    ∃ s1, tickIn sampleArith [2, 0, 3, 1] sampleWorld = .ok s1 ∧
      s1.particles.length = sampleWorld.particles.length ∧
      s1.velocities.length = sampleWorld.velocities.length ∧
      (∀ (i : Nat) (p v : Vec4 ℚ), sampleWorld.particles[i]? = some p →
        sampleWorld.velocities[i]? = some v →
        s1.particles[i]? = some (newPos sampleArith p v) ∧
        s1.velocities[i]? = some (newVel sampleArith p v)) ∧
      (∀ i : Int, 0 ≤ i → i < (sampleWorld.particles.length : Int) →
        (([2, 0, 3, 1].map (workerIndices sampleWorld.particles.length)).flatten).count i = 1) ∧
      (∀ (sched : List Tid) (c : Config ℚ), run sampleArith (initial sampleWorld) sched = some c →
        c.workers.length = threads → (∀ pc ∈ c.workers, pc = .returned) →
        c.world.particles = s1.particles ∧ c.world.velocities = s1.velocities) :=
  ⟨rfl, rfl, by decide,
    C1_tick_updates_each_index_once sampleArith sampleWorld [2, 0, 3, 1] rfl rfl (by decide)⟩

/-- C9: the loop body at index `i` depends on the state only through
`particles[i]` and `velocities[i]`; and on equal-length slices, running the
four workers one after another in any two orders (any two permutations of
`0, 1, 2, 3`) has the same outcome, which for an empty `done` is a normal end
in one and the same state, whose position and velocity slices hold the update
of every particle. -/
theorem C9_worker_order_irrelevant {α : Type} (a : Arith α) (s : World α) (o1 o2 : List Nat)
    (hlen : s.particles.length = s.velocities.length)
    (h1 : o1.Perm (List.range threads)) (h2 : o2.Perm (List.range threads)) :
    (∀ (u v u1 : World α) (i : Int), updateAt a u i = .ok u1 →
      readAt v.particles i = readAt u.particles i →
      readAt v.velocities i = readAt u.velocities i →
      ∃ v1, updateAt a v i = .ok v1 ∧ readAt v1.particles i = readAt u1.particles i ∧
        readAt v1.velocities i = readAt u1.velocities i) ∧
    runWorkers a s.particles.length o1 s = runWorkers a s.particles.length o2 s ∧
    (s.done = 0 → ∃ s1, runWorkers a s.particles.length o1 s = .ok s1 ∧
      runWorkers a s.particles.length o2 s = .ok s1 ∧
      s1.particles = (advance a s).particles ∧ s1.velocities = (advance a s).velocities) := by
  refine ⟨?_, runWorkers_order a s o1 o2 hlen h1 h2, ?_⟩
  · intro u v u1 i hu hp hv
    unfold updateAt at hu ⊢
    rw [hp, hv]
    split at hu
    · rename_i pPos vPos hp1 hv1
      cases hu
      rw [hp1] at hp
      rw [hv1] at hv
      have hi : ¬ i < 0 := by
        intro hneg
        simp [readAt, hneg] at hp1
      have hk1 : i.toNat < u.particles.length := by
        simp only [readAt, hi, if_false] at hp1
        exact (List.getElem?_eq_some.mp hp1).1
      have hk2 : i.toNat < u.velocities.length := by
        simp only [readAt, hi, if_false] at hv1
        exact (List.getElem?_eq_some.mp hv1).1
      have hk3 : i.toNat < v.particles.length := by
        simp only [readAt, hi, if_false] at hp
        exact (List.getElem?_eq_some.mp hp).1
      have hk4 : i.toNat < v.velocities.length := by
        simp only [readAt, hi, if_false] at hv
        exact (List.getElem?_eq_some.mp hv).1
      refine ⟨_, rfl, ?_, ?_⟩ <;> simp [readAt, hi, List.getElem?_set, hk1, hk2, hk3, hk4]
    · cases hu
  · intro hdone
    exact ⟨_, runWorkers_perm a s o1 hlen hdone h1, runWorkers_perm a s o2 hlen hdone h2,
      rfl, rfl⟩

theorem C9_worker_order_irrelevant_witness :
    sampleWorld.particles.length = sampleWorld.velocities.length ∧
    [0, 1, 2, 3].Perm (List.range threads) ∧ [3, 1, 0, 2].Perm (List.range threads) ∧
    (∀ (u v u1 : World ℚ) (i : Int), updateAt sampleArith u i = .ok u1 →
      readAt v.particles i = readAt u.particles i →
      readAt v.velocities i = readAt u.velocities i →
      ∃ v1, updateAt sampleArith v i = .ok v1 ∧
        readAt v1.particles i = readAt u1.particles i ∧
        readAt v1.velocities i = readAt u1.velocities i) ∧
    runWorkers sampleArith sampleWorld.particles.length [0, 1, 2, 3] sampleWorld =
      runWorkers sampleArith sampleWorld.particles.length [3, 1, 0, 2] sampleWorld ∧
    (sampleWorld.done = 0 →
      ∃ s1, runWorkers sampleArith sampleWorld.particles.length [0, 1, 2, 3] sampleWorld =
          .ok s1 ∧
        runWorkers sampleArith sampleWorld.particles.length [3, 1, 0, 2] sampleWorld = .ok s1 ∧
        s1.particles = (advance sampleArith sampleWorld).particles ∧
        s1.velocities = (advance sampleArith sampleWorld).velocities) :=
  ⟨rfl, by decide, by decide,
    C9_worker_order_irrelevant sampleArith sampleWorld [0, 1, 2, 3] [3, 1, 0, 2] rfl
      (by decide) (by decide)⟩

/-- C8: on equal-length slices of length `N`, the loop of worker `w` only takes
counter values `i` with `0 <= i < N`, so it ends without an index panic and
with the lengths unchanged; a computed end above `N` is replaced by `N`; and a
worker whose computed start is at least `N` has no counter value at all and
leaves the state as it found it. -/
theorem C8_worker_access_in_bounds {α : Type} (a : Arith α) (s : World α) (w : Nat)
    (hlen : s.particles.length = s.velocities.length) :
    (∀ i ∈ loopIndices (workerStart s.particles.length w)
        (clampEnd (workerEnd s.particles.length w) s.particles.length),
      0 ≤ i ∧ i < (s.particles.length : Int)) ∧
    (∃ s1, updateLoop a (workerStart s.particles.length w)
        (workerEnd s.particles.length w) s = .ok s1 ∧
      s1.particles.length = s.particles.length ∧
      s1.velocities.length = s.velocities.length) ∧
    ((s.particles.length : Int) < workerEnd s.particles.length w →
      clampEnd (workerEnd s.particles.length w) s.particles.length = s.particles.length) ∧
    ((s.particles.length : Int) ≤ workerStart s.particles.length w →
      loopIndices (workerStart s.particles.length w)
        (clampEnd (workerEnd s.particles.length w) s.particles.length) = [] ∧
      updateLoop a (workerStart s.particles.length w)
        (workerEnd s.particles.length w) s = .ok s) := by
  have hB := batchSize_pos s.particles.length
  have h0 : 0 ≤ workerStart s.particles.length w := by
    unfold workerStart
    positivity
  refine ⟨fun i hi => workerIndices_bounds _ w i hi, ?_, ?_, ?_⟩
  · obtain ⟨s1, h1, _, h2, h3⟩ := updateLoop_total a s _ (workerEnd s.particles.length w) hlen
      (Or.inl h0)
    exact ⟨s1, h1, h2, h3⟩
  · intro h
    simp [clampEnd, h]
  · intro h
    have hnil : loopIndices (workerStart s.particles.length w)
        (clampEnd (workerEnd s.particles.length w) s.particles.length) = [] := by
      apply List.eq_nil_iff_forall_not_mem.mpr
      intro i hi
      have := workerIndices_bounds _ w i hi
      rw [mem_loopIndices] at hi
      omega
    refine ⟨hnil, ?_⟩
    unfold updateLoop
    rw [hnil]
    rfl

theorem C8_worker_access_in_bounds_witness :
    sampleWorld.particles.length = sampleWorld.velocities.length ∧
    (∀ i ∈ loopIndices (workerStart sampleWorld.particles.length 2)
        (clampEnd (workerEnd sampleWorld.particles.length 2) sampleWorld.particles.length),
      0 ≤ i ∧ i < (sampleWorld.particles.length : Int)) ∧
    (∃ s1, updateLoop sampleArith (workerStart sampleWorld.particles.length 2)
        (workerEnd sampleWorld.particles.length 2) sampleWorld = .ok s1 ∧
      s1.particles.length = sampleWorld.particles.length ∧
      s1.velocities.length = sampleWorld.velocities.length) ∧
    ((sampleWorld.particles.length : Int) < workerEnd sampleWorld.particles.length 2 →
      clampEnd (workerEnd sampleWorld.particles.length 2) sampleWorld.particles.length =
        sampleWorld.particles.length) ∧
    ((sampleWorld.particles.length : Int) ≤ workerStart sampleWorld.particles.length 2 →
      loopIndices (workerStart sampleWorld.particles.length 2)
        (clampEnd (workerEnd sampleWorld.particles.length 2) sampleWorld.particles.length) = [] ∧
      updateLoop sampleArith (workerStart sampleWorld.particles.length 2)
        (workerEnd sampleWorld.particles.length 2) sampleWorld = .ok sampleWorld) :=
  ⟨rfl, C8_worker_access_in_bounds sampleArith sampleWorld 2 rfl⟩

/-- C6: the update copies the fourth component of a position or velocity
through unchanged; hence from a state whose positions all have fourth
component 1 and whose velocities all have fourth component 0, every state
reached after `k` ticks has the same property, and on equal-length slices
with `done` empty the `k` ticks do run to their end. -/
theorem C6_homogeneous_preserved {α : Type} [One α] [Zero α] (a : Arith α) (s : World α)
    (k : Nat) (hp : ∀ p ∈ s.particles, p.w = 1) (hv : ∀ v ∈ s.velocities, v.w = 0) :
    (∀ p v : Vec4 α, (newPos a p v).w = p.w ∧ (newVel a p v).w = v.w) ∧
    (∀ s1, ticks a k s = .ok s1 →
      (∀ p ∈ s1.particles, p.w = 1) ∧ (∀ v ∈ s1.velocities, v.w = 0)) ∧
    (s.particles.length = s.velocities.length → s.done = 0 →
      ∃ s1, ticks a k s = .ok s1) :=
  ⟨fun _ _ => ⟨rfl, rfl⟩, fun s1 h => ticks_homogeneous a k s s1 h ⟨hp, hv⟩,
    fun hlen hdone => ⟨_, ticks_eq_iterate a k s hlen hdone⟩⟩

theorem C6_homogeneous_preserved_witness :
    (∀ p ∈ sampleWorld.particles, p.w = 1) ∧ (∀ v ∈ sampleWorld.velocities, v.w = 0) ∧
    (∀ p v : Vec4 ℚ, (newPos sampleArith p v).w = p.w ∧ (newVel sampleArith p v).w = v.w) ∧
    (∀ s1, ticks sampleArith 1000 sampleWorld = .ok s1 →
      (∀ p ∈ s1.particles, p.w = 1) ∧ (∀ v ∈ s1.velocities, v.w = 0)) ∧
    (sampleWorld.particles.length = sampleWorld.velocities.length → sampleWorld.done = 0 →
      ∃ s1, ticks sampleArith 1000 sampleWorld = .ok s1) :=
  ⟨by simp [sampleWorld], by simp [sampleWorld],
    C6_homogeneous_preserved sampleArith sampleWorld 1000 (by simp [sampleWorld])
      (by simp [sampleWorld])⟩

/-- C10 (as stated: every call sends one signal, for every `start` and `end`)
fails for a negative `start` with a non-empty range: on the five sample
particles, `updateParticles(-1, 1)` panics on `particles[-1]` and never reaches
the send. -/
theorem C10_counterexample :
    updateParticles sampleArith (-1) 1 sampleWorld = .error .indexOutOfRange ∧
    ¬ ∃ s1, updateParticles sampleArith (-1) 1 sampleWorld = .ok s1 ∧
      s1.done = sampleWorld.done + 1 := by
  have h : updateParticles sampleArith (-1) 1 sampleWorld = .error .indexOutOfRange := rfl
  refine ⟨h, ?_⟩
  rintro ⟨s1, h1, _⟩
  rw [h] at h1
  cases h1

/-- C10 (amended): on equal-length slices, a call `updateParticles(start, end)`
whose `start` is non-negative or whose range is empty, made while `done` has a
free slot, ends normally and adds exactly one value to `done`; every call with
a negative `start` and a non-empty range panics on `particles[start]` and
sends nothing.  Hence in a tick that starts with `done` empty, after any
`m <= 4` of the workers have run `done` holds `m` values, never more than its
capacity; after all four it holds
4, the test `len(done) == 4` of the wait loop succeeds and the drain leaves
`done` empty; so `done` is empty again after every number of ticks.  Under
every interleaving of the goroutines of such a tick nobody panics, `done`
never holds more than 4 values, a worker that reaches its send is not
blocked, `done` holds 4 values once all four workers have returned, and it is
empty when `main` leaves the wait loop. -/
theorem C10_completion_signals {α : Type} (a : Arith α) (s : World α)
    (hlen : s.particles.length = s.velocities.length) :
    (∀ start end_ : Int, (0 ≤ start ∨ clampEnd end_ s.particles.length ≤ start) →
      s.done < threads →
      ∃ s1, updateParticles a start end_ s = .ok s1 ∧ s1.done = s.done + 1) ∧
    (∀ start end_ : Int, start < 0 → start < clampEnd end_ s.particles.length →
      updateParticles a start end_ s = .error .indexOutOfRange) ∧
    (s.done = 0 → ∀ order : List Nat, order.Perm (List.range threads) →
      (∀ m, m ≤ threads → ∃ s1, runWorkers a s.particles.length (order.take m) s = .ok s1 ∧
        s1.done = m ∧ s1.done ≤ threads) ∧
      ∃ s4 s5, runWorkers a s.particles.length order s = .ok s4 ∧ s4.done = 4 ∧
        awaitAll s4 = .ok s5 ∧ s5.done = 0) ∧
    (s.done = 0 → ∀ k, ∃ s1, ticks a k s = .ok s1 ∧ s1.done = 0) ∧
    (s.done = 0 → ∀ (sched : List Tid) (c : Config α), run a (initial s) sched = some c →
      c.panicked = false ∧ c.world.done ≤ threads ∧
      (∀ (w : Nat) (i e : Int), c.workers[w]? = some (.loop i e) → ¬ i < e →
        ∃ c1, stepWorker a c w = some c1) ∧
      (c.main = .wait → c.workers.length = threads → (∀ pc ∈ c.workers, pc = .returned) →
        c.world.done = 4) ∧
      (c.main = .resumed → c.world.done = 0)) := by
  refine ⟨?_, fun start end_ hneg hne => negative_start_panics a s start end_ hneg hne,
    ?_, ?_, ?_⟩
  rotate_right
  · intro hdone sched c hrun
    have hI := run_inv a s hlen sched _ c (initial_inv a s hdone) hrun
    refine ⟨hI.alive, inv_done_le a s c hI, fun w i e hw hge =>
      inv_send_enabled a s c hI w i e hw hge, ?_, ?_⟩
    · intro hm h4 hall
      have hM := hI.mainOk
      unfold MainOk at hM
      rw [hm] at hM
      simp only at hM
      rw [hM.2, List.count_eq_length.mpr (fun b hb => (hall b hb).symm), h4]
      rfl
    · intro hm
      have hM := hI.mainOk
      unfold MainOk at hM
      rw [hm] at hM
      exact hM.2.2
  · intro start end_ hstart hfree
    obtain ⟨s1, h1, hd1, _, _⟩ := updateLoop_total a s start end_ hlen hstart
    refine ⟨{ s1 with done := s1.done + 1 }, ?_, by simp [hd1]⟩
    unfold updateParticles
    rw [h1]
    simp [chanSend, hd1, hfree]
  · intro hdone order hperm
    have hnd : order.Nodup := hperm.nodup_iff.mpr (List.nodup_range _)
    have hlen4 : order.length = threads := by simpa using hperm.length_eq
    constructor
    · intro m hm
      obtain ⟨s1, h1, hd1, _⟩ := runWorkers_progress a s hlen (order.take m) s _
        (progress_init a s) (List.Nodup.sublist (List.take_sublist m order) hnd)
        (fun _ _ _ _ h => h) (by rw [List.length_take]; omega)
      refine ⟨s1, h1, ?_, ?_⟩
      · rw [hd1, List.length_take]
        omega
      · rw [hd1, List.length_take]
        omega
    · refine ⟨_, advance a s, runWorkers_perm a s order hlen hdone hperm, rfl, ?_, ?_⟩
      · simp [awaitAll, threads, drain_eq_zero, advance, hdone]
      · simp [advance, hdone]
  · intro hdone k
    exact ⟨_, ticks_eq_iterate a k s hlen hdone, by rw [iterate_advance_done, hdone]⟩

theorem C10_completion_signals_witness :
    sampleWorld.particles.length = sampleWorld.velocities.length ∧
    (∀ start end_ : Int, (0 ≤ start ∨ clampEnd end_ sampleWorld.particles.length ≤ start) →
      sampleWorld.done < threads →
      ∃ s1, updateParticles sampleArith start end_ sampleWorld = .ok s1 ∧
        s1.done = sampleWorld.done + 1) ∧
    (∀ start end_ : Int, start < 0 → start < clampEnd end_ sampleWorld.particles.length →
      updateParticles sampleArith start end_ sampleWorld = .error .indexOutOfRange) ∧
    (sampleWorld.done = 0 → ∀ order : List Nat, order.Perm (List.range threads) →
      (∀ m, m ≤ threads →
        ∃ s1, runWorkers sampleArith sampleWorld.particles.length (order.take m) sampleWorld =
            .ok s1 ∧
          s1.done = m ∧ s1.done ≤ threads) ∧
      ∃ s4 s5, runWorkers sampleArith sampleWorld.particles.length order sampleWorld = .ok s4 ∧
        s4.done = 4 ∧ awaitAll s4 = .ok s5 ∧ s5.done = 0) ∧
    (sampleWorld.done = 0 → ∀ k, ∃ s1, ticks sampleArith k sampleWorld = .ok s1 ∧ s1.done = 0) ∧
    (sampleWorld.done = 0 → ∀ (sched : List Tid) (c : Config ℚ),
      run sampleArith (initial sampleWorld) sched = some c →
      c.panicked = false ∧ c.world.done ≤ threads ∧
      (∀ (w : Nat) (i e : Int), c.workers[w]? = some (.loop i e) → ¬ i < e →
        ∃ c1, stepWorker sampleArith c w = some c1) ∧
      (c.main = .wait → c.workers.length = threads → (∀ pc ∈ c.workers, pc = .returned) →
        c.world.done = 4) ∧
      (c.main = .resumed → c.world.done = 0)) :=
  ⟨rfl, C10_completion_signals sampleArith sampleWorld rfl⟩

/-- C2: over exact real arithmetic and for a non-zero velocity, the nested
`Hypot` of the body is `d = sqrt (vx^2 + vy^2 + vz^2)`, which is positive, the
acceleration is `g = -9 * (px/d, py/d, pz/d)`, and the entries written are
`p + v*t + 0.5*t^2*g` and `v + g*t` with `t = 0.01`; the loop body writes
exactly these two values, both computed from the entries `p` and `v` it read
before writing. -/
theorem C2_update_rule (p v : Vec4 ℝ) (hv : v.x ≠ 0 ∨ v.y ≠ 0 ∨ v.z ≠ 0) :
    let a := exactArith ℝ Real.sqrt
    let d := Real.sqrt (v.x ^ 2 + v.y ^ 2 + v.z ^ 2)
    let g : Vec3 ℝ := ⟨-9 * (p.x / d), -9 * (p.y / d), -9 * (p.z / d)⟩
    let t : ℝ := 0.01
    0 < d ∧
    a.hypot (a.to64 v.x) (a.hypot (a.to64 v.y) (a.to64 v.z)) = d ∧
    speed a v = d ∧
    gravity a p v = g ∧
    newPos a p v = ⟨p.x + v.x * t + 0.5 * t ^ 2 * g.x, p.y + v.y * t + 0.5 * t ^ 2 * g.y,
      p.z + v.z * t + 0.5 * t ^ 2 * g.z, p.w⟩ ∧
    newVel a p v = ⟨v.x + g.x * t, v.y + g.y * t, v.z + g.z * t, v.w⟩ ∧
    ∀ (s : World ℝ) (i : Nat), s.particles[i]? = some p → s.velocities[i]? = some v →
      updateAt a s (i : Int) = .ok { s with
        particles := s.particles.set i (newPos a p v)
        velocities := s.velocities.set i (newVel a p v) } := by
  intro a d g t
  have hsum : 0 < v.x ^ 2 + v.y ^ 2 + v.z ^ 2 := by
    rcases hv with h | h | h
    · have := pow_pos (abs_pos.mpr h) 2
      rw [sq_abs] at this
      nlinarith [sq_nonneg v.y, sq_nonneg v.z]
    · have := pow_pos (abs_pos.mpr h) 2
      rw [sq_abs] at this
      nlinarith [sq_nonneg v.x, sq_nonneg v.z]
    · have := pow_pos (abs_pos.mpr h) 2
      rw [sq_abs] at this
      nlinarith [sq_nonneg v.x, sq_nonneg v.y]
  have hd : a.hypot (a.to64 v.x) (a.hypot (a.to64 v.y) (a.to64 v.z)) = d := by
    show Real.sqrt (v.x * v.x + Real.sqrt (v.y * v.y + v.z * v.z) *
      Real.sqrt (v.y * v.y + v.z * v.z)) = Real.sqrt (v.x ^ 2 + v.y ^ 2 + v.z ^ 2)
    rw [Real.mul_self_sqrt (by nlinarith [sq_nonneg v.y, sq_nonneg v.z])]
    congr 1
    ring
  have hs : speed a v = d := hd
  have hg : gravity a p v = g := by
    simp only [gravity, hs]
    show (⟨p.x / d * -9, p.y / d * -9, p.z / d * -9⟩ : Vec3 ℝ) = g
    simp only [g]
    congr 1 <;> ring
  refine ⟨Real.sqrt_pos.mpr hsum, hd, hs, hg, ?_, ?_, ?_⟩
  · simp only [newPos, hg]
    show (⟨p.x + v.x * (1 / 100) + 1 / 2 * (1 / 100) * (1 / 100) * g.x,
      p.y + v.y * (1 / 100) + 1 / 2 * (1 / 100) * (1 / 100) * g.y,
      p.z + v.z * (1 / 100) + 1 / 2 * (1 / 100) * (1 / 100) * g.z, p.w⟩ : Vec4 ℝ) = _
    simp only [t]
    congr 1 <;> norm_num
  · simp only [newVel, hg]
    show (⟨v.x + g.x * (1 / 100), v.y + g.y * (1 / 100), v.z + g.z * (1 / 100), v.w⟩ :
      Vec4 ℝ) = _
    simp only [t]
    congr 1 <;> norm_num
  · intro s i hp hv2
    unfold updateAt
    rw [readAt_natCast, readAt_natCast, hp, hv2]
    simp

theorem C2_update_rule_witness :
    (((3 : ℝ) ≠ 0 ∨ (4 : ℝ) ≠ 0 ∨ (12 : ℝ) ≠ 0)) ∧
    (let p : Vec4 ℝ := ⟨0, 0, 10, 1⟩
     let v : Vec4 ℝ := ⟨3, 4, 12, 0⟩
     let a := exactArith ℝ Real.sqrt
     let d := Real.sqrt (v.x ^ 2 + v.y ^ 2 + v.z ^ 2)
     let g : Vec3 ℝ := ⟨-9 * (p.x / d), -9 * (p.y / d), -9 * (p.z / d)⟩
     let t : ℝ := 0.01
     0 < d ∧
     a.hypot (a.to64 v.x) (a.hypot (a.to64 v.y) (a.to64 v.z)) = d ∧
     speed a v = d ∧
     gravity a p v = g ∧
     newPos a p v = ⟨p.x + v.x * t + 0.5 * t ^ 2 * g.x, p.y + v.y * t + 0.5 * t ^ 2 * g.y,
       p.z + v.z * t + 0.5 * t ^ 2 * g.z, p.w⟩ ∧
     newVel a p v = ⟨v.x + g.x * t, v.y + g.y * t, v.z + g.z * t, v.w⟩ ∧
     ∀ (s : World ℝ) (i : Nat), s.particles[i]? = some p → s.velocities[i]? = some v →
       updateAt a s (i : Int) = .ok { s with
         particles := s.particles.set i (newPos a p v)
         velocities := s.velocities.set i (newVel a p v) }) :=
  ⟨Or.inl (by norm_num), C2_update_rule ⟨0, 0, 10, 1⟩ ⟨3, 4, 12, 0⟩ (Or.inl (by norm_num))⟩

/-- C3 (as stated) fails: for `p = (0,0,10)`, `v = (1,0,0)` the acceleration is
not `(0,0,-9)`, the new `z` position is farther than `1e-4` from `9.99955`,
and the new `z` velocity is farther than `1e-4` from `-0.09`. -/
theorem C3_counterexample :
    gravity (exactArith ℝ Real.sqrt) ⟨0, 0, 10, 1⟩ ⟨1, 0, 0, 0⟩ ≠ ⟨0, 0, -9⟩ ∧
    ¬ |(newPos (exactArith ℝ Real.sqrt) ⟨0, 0, 10, 1⟩ ⟨1, 0, 0, 0⟩).z - 9.99955| ≤ 0.0001 ∧
    ¬ |(newVel (exactArith ℝ Real.sqrt) ⟨0, 0, 10, 1⟩ ⟨1, 0, 0, 0⟩).z - (-0.09)| ≤ 0.0001 := by
  refine ⟨?_, ?_, ?_⟩
  · intro h
    have hz := congrArg Vec3.z h
    simp [gravity, speed, exactArith] at hz
  · simp [newPos, gravity, speed, exactArith]
    norm_num [lt_abs]
  · simp [newVel, gravity, speed, exactArith]
    norm_num [lt_abs]

/-- C3 (amended): for `p = (0,0,10)`, `v = (1,0,0)`, `t = 0.01` and gravity
constant 9.0 the update computes `d = 1` and `g = (0,0,-90)`, and its result is
`p' = (0.01, 0, 9.9955)` and `v' = (1, 0, -0.9)`: exactly so over exact
arithmetic, and with every component within `1e-4` of these values (`g`
within `1e-3`) under any arithmetic whose operations carry a relative error of
at most `1e-6`, as the rounding of `float32` does; under such an arithmetic
the new `z` position and velocity are never within `1e-4` of `9.99955` and
`-0.09`. -/
theorem C3_unit_example (a : Arith ℝ) (u : ℝ) (hu0 : 0 ≤ u) (hu : u ≤ 1 / 1000000)
    (hA : Accurate a u) :
    (speed (exactArith ℝ Real.sqrt) ⟨1, 0, 0, 0⟩ = 1 ∧
      gravity (exactArith ℝ Real.sqrt) ⟨0, 0, 10, 1⟩ ⟨1, 0, 0, 0⟩ = ⟨0, 0, -90⟩ ∧
      newPos (exactArith ℝ Real.sqrt) ⟨0, 0, 10, 1⟩ ⟨1, 0, 0, 0⟩ = ⟨0.01, 0, 9.9955, 1⟩ ∧
      newVel (exactArith ℝ Real.sqrt) ⟨0, 0, 10, 1⟩ ⟨1, 0, 0, 0⟩ = ⟨1, 0, -0.9, 0⟩) ∧
    (|speed a ⟨1, 0, 0, 0⟩ - 1| ≤ 1 / 1000000 ∧
      (gravity a ⟨0, 0, 10, 1⟩ ⟨1, 0, 0, 0⟩).x = 0 ∧
      (gravity a ⟨0, 0, 10, 1⟩ ⟨1, 0, 0, 0⟩).y = 0 ∧
      |(gravity a ⟨0, 0, 10, 1⟩ ⟨1, 0, 0, 0⟩).z - (-90)| ≤ 1 / 1000 ∧
      |(newPos a ⟨0, 0, 10, 1⟩ ⟨1, 0, 0, 0⟩).x - 0.01| ≤ 0.0001 ∧
      (newPos a ⟨0, 0, 10, 1⟩ ⟨1, 0, 0, 0⟩).y = 0 ∧
      |(newPos a ⟨0, 0, 10, 1⟩ ⟨1, 0, 0, 0⟩).z - 9.9955| ≤ 0.0001 ∧
      (newPos a ⟨0, 0, 10, 1⟩ ⟨1, 0, 0, 0⟩).w = 1 ∧
      |(newVel a ⟨0, 0, 10, 1⟩ ⟨1, 0, 0, 0⟩).x - 1| ≤ 0.0001 ∧
      (newVel a ⟨0, 0, 10, 1⟩ ⟨1, 0, 0, 0⟩).y = 0 ∧
      |(newVel a ⟨0, 0, 10, 1⟩ ⟨1, 0, 0, 0⟩).z - (-0.9)| ≤ 0.0001 ∧
      (newVel a ⟨0, 0, 10, 1⟩ ⟨1, 0, 0, 0⟩).w = 0) ∧
    ¬ |(newPos a ⟨0, 0, 10, 1⟩ ⟨1, 0, 0, 0⟩).z - 9.99955| ≤ 0.0001 ∧
    ¬ |(newVel a ⟨0, 0, 10, 1⟩ ⟨1, 0, 0, 0⟩).z - (-0.09)| ≤ 0.0001 := by
  have hb := unit_example_bounds a u hu0 hu hA
  refine ⟨⟨?_, ?_, ?_, ?_⟩, hb, ?_, ?_⟩
  · simp [speed, exactArith]
  · simp [gravity, speed, exactArith]
    norm_num
  · simp [newPos, gravity, speed, exactArith]
    norm_num
  · simp [newVel, gravity, speed, exactArith]
    norm_num
  · have hz := abs_le.mp hb.2.2.2.2.2.2.1
    intro h
    have h2 := abs_le.mp h
    norm_num at hz h2
    linarith [hz.1, h2.2]
  · have hz := abs_le.mp hb.2.2.2.2.2.2.2.2.2.2.1
    intro h
    have h2 := abs_le.mp h
    norm_num at hz h2
    linarith [hz.2, h2.1]

theorem C3_unit_example_witness :
    (0 : ℝ) ≤ 0 ∧ (0 : ℝ) ≤ 1 / 1000000 ∧ Accurate (exactArith ℝ Real.sqrt) 0 ∧
    (speed (exactArith ℝ Real.sqrt) ⟨1, 0, 0, 0⟩ = 1 ∧
      gravity (exactArith ℝ Real.sqrt) ⟨0, 0, 10, 1⟩ ⟨1, 0, 0, 0⟩ = ⟨0, 0, -90⟩ ∧
      newPos (exactArith ℝ Real.sqrt) ⟨0, 0, 10, 1⟩ ⟨1, 0, 0, 0⟩ = ⟨0.01, 0, 9.9955, 1⟩ ∧
      newVel (exactArith ℝ Real.sqrt) ⟨0, 0, 10, 1⟩ ⟨1, 0, 0, 0⟩ = ⟨1, 0, -0.9, 0⟩) ∧
    (|speed (exactArith ℝ Real.sqrt) ⟨1, 0, 0, 0⟩ - 1| ≤ 1 / 1000000 ∧
      (gravity (exactArith ℝ Real.sqrt) ⟨0, 0, 10, 1⟩ ⟨1, 0, 0, 0⟩).x = 0 ∧
      (gravity (exactArith ℝ Real.sqrt) ⟨0, 0, 10, 1⟩ ⟨1, 0, 0, 0⟩).y = 0 ∧
      |(gravity (exactArith ℝ Real.sqrt) ⟨0, 0, 10, 1⟩ ⟨1, 0, 0, 0⟩).z - (-90)| ≤ 1 / 1000 ∧
      |(newPos (exactArith ℝ Real.sqrt) ⟨0, 0, 10, 1⟩ ⟨1, 0, 0, 0⟩).x - 0.01| ≤ 0.0001 ∧
      (newPos (exactArith ℝ Real.sqrt) ⟨0, 0, 10, 1⟩ ⟨1, 0, 0, 0⟩).y = 0 ∧
      |(newPos (exactArith ℝ Real.sqrt) ⟨0, 0, 10, 1⟩ ⟨1, 0, 0, 0⟩).z - 9.9955| ≤ 0.0001 ∧
      (newPos (exactArith ℝ Real.sqrt) ⟨0, 0, 10, 1⟩ ⟨1, 0, 0, 0⟩).w = 1 ∧
      |(newVel (exactArith ℝ Real.sqrt) ⟨0, 0, 10, 1⟩ ⟨1, 0, 0, 0⟩).x - 1| ≤ 0.0001 ∧
      (newVel (exactArith ℝ Real.sqrt) ⟨0, 0, 10, 1⟩ ⟨1, 0, 0, 0⟩).y = 0 ∧
      |(newVel (exactArith ℝ Real.sqrt) ⟨0, 0, 10, 1⟩ ⟨1, 0, 0, 0⟩).z - (-0.9)| ≤ 0.0001 ∧
      (newVel (exactArith ℝ Real.sqrt) ⟨0, 0, 10, 1⟩ ⟨1, 0, 0, 0⟩).w = 0) ∧
    ¬ |(newPos (exactArith ℝ Real.sqrt) ⟨0, 0, 10, 1⟩ ⟨1, 0, 0, 0⟩).z - 9.99955| ≤ 0.0001 ∧
    ¬ |(newVel (exactArith ℝ Real.sqrt) ⟨0, 0, 10, 1⟩ ⟨1, 0, 0, 0⟩).z - (-0.09)| ≤ 0.0001 :=
  ⟨le_rfl, by norm_num, exact_accurate 0 le_rfl,
    C3_unit_example (exactArith ℝ Real.sqrt) 0 le_rfl (by norm_num) (exact_accurate 0 le_rfl)⟩

/-- C7: in every interleaving of a tick started on equal-length slices with
`done` empty, once `main` has seen `len(done) == 4` (it is draining `done` or
has left the wait loop), all four workers have been spawned and have returned,
nobody has panicked, no worker can take another step, the slices hold the
completed update, and no later step of the tick changes the slices. -/
theorem C7_barrier_complete {α : Type} (a : Arith α) (s0 : World α) (sched : List Tid)
    (c : Config α) (hlen : s0.particles.length = s0.velocities.length) (hdone : s0.done = 0)
    (hrun : run a (initial s0) sched = some c)
    (hexit : c.main = .drain ∨ c.main = .resumed) :
    c.panicked = false ∧
    c.workers.length = threads ∧ (∀ pc ∈ c.workers, pc = .returned) ∧
    (∀ w, stepWorker a c w = none) ∧
    c.world.particles = (advance a s0).particles ∧
    c.world.velocities = (advance a s0).velocities ∧
    (∀ (sched1 : List Tid) (c1 : Config α), run a c sched1 = some c1 →
      c1.world.particles = c.world.particles ∧ c1.world.velocities = c.world.velocities) := by
  have hI := run_inv a s0 hlen sched _ c (initial_inv a s0 hdone) hrun
  obtain ⟨h4, hall⟩ := inv_past_barrier a s0 c hI hexit
  obtain ⟨hp, hv⟩ := inv_all_returned a s0 c hlen hI h4 hall
  refine ⟨hI.alive, h4, hall, fun w => stepWorker_returned a c w hall, hp, hv, ?_⟩
  intro sched1 c1 h1
  obtain ⟨r1, r2, _, _⟩ := run_past_barrier a sched1 c c1 hall hexit h1
  exact ⟨r1, r2⟩

theorem C7_barrier_complete_witness :
    sampleSmall.particles.length = sampleSmall.velocities.length ∧ sampleSmall.done = 0 ∧
    run sampleArith (initial sampleSmall) sampleSchedule = some sampleFinal ∧
    (sampleFinal.main = .drain ∨ sampleFinal.main = .resumed) ∧
    sampleFinal.panicked = false ∧
    sampleFinal.workers.length = threads ∧ (∀ pc ∈ sampleFinal.workers, pc = .returned) ∧
    (∀ w, stepWorker sampleArith sampleFinal w = none) ∧
    sampleFinal.world.particles = (advance sampleArith sampleSmall).particles ∧
    sampleFinal.world.velocities = (advance sampleArith sampleSmall).velocities ∧
    (∀ (sched1 : List Tid) (c1 : Config ℚ), run sampleArith sampleFinal sched1 = some c1 →
      c1.world.particles = sampleFinal.world.particles ∧
      c1.world.velocities = sampleFinal.world.velocities) :=
  ⟨rfl, rfl, rfl, Or.inr rfl,
    C7_barrier_complete sampleArith sampleSmall sampleSchedule sampleFinal rfl rfl rfl
      (Or.inr rfl)⟩

end Particles
